import Mathlib

/-!
# Verification of the rottnest-rs search core

A shallow embedding of the search engine in `src/lava/search.rs` and the
byte-range reader in `src/formats/io.rs`, together with theorems checking the
natural-language specification against it.

Machine integers (`u64`, `usize`) are modelled as `Nat`; the one place where
unsigned wrap-around is observable (the posting-list offsets length expression
in `search_bm25_async`) uses an explicit modular subtraction `u64sub`.
Fallible Rust code (`Result`, `?`) is modelled with `Except`; a Rust panic
(failed `assert!`, out-of-bounds index, arithmetic underflow, `unwrap` of an
error) is modelled as the distinguished failure `Fail.panic`.
-/

/-- The `std::io::ErrorKind` values relevant to the reader: the code produces
`InvalidData` and (in dead code) `Interrupted`; `InvalidInput` is included so
the spec sentence naming it can be stated. -/
inductive IoKind : Type
  | invalidData
  | invalidInput
  | interrupted
deriving DecidableEq, Repr

/-- Modelled from the spec: `src/lava/error.rs` is not under `src/`; §7 of the
spec lists the error kinds I/O, InvalidInput, Parse, Inconsistent, Internal.
The search code under `src/` constructs only `Io` (from `ErrorKind`) and
`Parse` values. -/
inductive LavaError : Type
  | Io : IoKind → LavaError
  | Parse : String → LavaError
  | Inconsistent : String → LavaError
  | Internal : String → LavaError
deriving DecidableEq, Repr

/-- A failure of a modelled computation: either an error value returned to the
caller (`err`) or an aborted process (`panic`). -/
inductive Fail : Type
  | err : LavaError → Fail
  | panic : String → Fail
deriving DecidableEq, Repr

/-- Outcome of a modelled fallible computation. -/
abbrev Res (α : Type) : Type := Except Fail α

instance {ε α : Type} [DecidableEq ε] [DecidableEq α] : DecidableEq (Except ε α)
  | .error e, .error e' =>
    if h : e = e' then .isTrue (by rw [h]) else .isFalse (by intro hc; cases hc; exact h rfl)
  | .error _, .ok _ => .isFalse (by intro hc; cases hc)
  | .ok _, .error _ => .isFalse (by intro hc; cases hc)
  | .ok a, .ok a' =>
    if h : a = a' then .isTrue (by rw [h]) else .isFalse (by intro hc; cases hc; exact h rfl)

/-- Evaluates to `true` exactly when the outcome is an error *value* returned to the caller
(as opposed to a success or a panic). -/
def resultIsErrorValue {α : Type} : Res α → Bool
  | .error (.err _) => true
  | _ => false

/-- Wrapping 64-bit subtraction, for the one spot where the source subtracts
`u64` quantities that can underflow. -/
def u64sub (a b : Nat) : Nat := (a + 2 ^ 64 - b % 2 ^ 64) % 2 ^ 64

/-! ## `AsyncReader::read_range` (src/formats/io.rs, lines 47–73)

The reader backend is abstracted as `read : Nat → List Nat`, giving the bytes a
single `read_buf` call yields when the cursor sits at the given absolute
offset (`[]` models a zero-byte short read, for example at end of file).  A
call never yields more than the destination buffer's spare capacity, which in
the source is `total - current` bytes of the `BytesMut` split; the model
truncates with `List.take` accordingly.  The `while current < total` loop is
given explicit fuel; `none` means the loop has not terminated within the given
fuel (for any fuel), which is how the model expresses divergence. -/

def readRangeLoop (read : Nat → List Nat) (frm total : Nat) :
    Nat → Nat → List Nat → Option (List Nat)
  | 0, current, acc => if current < total then none else some acc
  | fuel + 1, current, acc =>
    if current < total then
      let chunk := (read (frm + current)).take (total - current)
      readRangeLoop read frm total fuel (current + chunk.length) (acc ++ chunk)
    else some acc

/-- The model of `read_range(from, to)`: the guard returns `LavaError::Io(InvalidData)` when
`from >= to`; otherwise the retry loop runs, and on exit the source compares
`res.len()` against `total` and returns `Io(Interrupted)` when short. -/
def readRange (read : Nat → List Nat) (frm upTo fuel : Nat) :
    Option (Res (List Nat)) :=
  if frm ≥ upTo then some (.error (.err (.Io .invalidData)))
  else
    (readRangeLoop read frm (upTo - frm) fuel 0 []).map fun res =>
      if res.length < upTo - frm then .error (.err (.Io .interrupted)) else .ok res

/-! ## Rust `slice::binary_search` and the BM25 chunk locator
(src/lava/search.rs, lines 220–231) -/

/-- Outcome of `slice::binary_search`: `found idx` is `Ok(idx)` with the
element at `idx` equal to the target (for duplicates, whichever index the
midpoint probe hits), `notFound idx` is `Err(idx)` with the insertion point. -/
inductive BsResult : Type
  | found : Nat → BsResult
  | notFound : Nat → BsResult
deriving DecidableEq, Repr

/-- The standard-library midpoint binary search, fuelled.  Each step either
returns or strictly shrinks `right - left`, so fuel `≥ right - left` never
runs out; at fuel zero the residual answer agrees with the loop exit. -/
def bsGo (b : List Nat) (t : Nat) : Nat → Nat → Nat → BsResult
  | 0, left, _ => .notFound left
  | fuel + 1, left, right =>
    if left < right then
      if b.getD (left + (right - left) / 2) 0 < t then
        bsGo b t fuel (left + (right - left) / 2 + 1) right
      else if t < b.getD (left + (right - left) / 2) 0 then
        bsGo b t fuel left (left + (right - left) / 2)
      else .found (left + (right - left) / 2)
    else .notFound left

/-- Rust `b.binary_search(&t)` for a `&[u64]` slice. -/
def rustBinarySearch (b : List Nat) (t : Nat) : BsResult :=
  bsGo b t (b.length + 1) 0 b.length

/-- The chunk-locating match in `search_bm25_async`:
`Ok(idx) => (idx, 0)`, `Err(idx) => (idx - 1, tok - term_dict_len[idx - 1])`.
When `idx = 0`, `idx - 1` underflows `usize`, which aborts (debug panic, or
release wrap followed by an out-of-bounds index). -/
def locateChunk (tdl : List Nat) (t : Nat) : Res (Nat × Nat) :=
  match rustBinarySearch tdl t with
  | .found idx => .ok (idx, 0)
  | .notFound idx =>
    if idx = 0 then .error (.panic "attempt to subtract with overflow")
    else
      match tdl.get? (idx - 1) with
      | none => .error (.panic "index out of bounds: term_dict_len")
      | some bv => .ok (idx - 1, t - bv)

/-- The largest index `j` with `b[j] ≤ t` (what the spec says the locator
computes), or `none` when no entry qualifies. -/
def largestLE (b : List Nat) (t : Nat) : Option Nat :=
  (List.range b.length).foldl
    (fun acc i => if b.getD i 0 ≤ t then some i else acc) none

/-! ## The final BM25 sort (src/lava/search.rs, lines 287–294)

`page_scores_vec.sort_by(|a, b| b.1.partial_cmp(&a.1).unwrap())` is a stable
sort whose comparator looks only at the score.  Scores are accumulated in
`f32`; no claim depends on rounding, so scores are modelled in `ℚ` (with the
IDF factor left abstract).  A stable sort is characterised by its behaviour,
so an insertion sort with the same comparator is used: an element is placed
before the first already-placed element whose score is `≤` its own. -/

def insertDesc (x : (Nat × Nat) × ℚ) : List ((Nat × Nat) × ℚ) → List ((Nat × Nat) × ℚ)
  | [] => [x]
  | y :: rest => if y.2 ≤ x.2 then x :: y :: rest else y :: insertDesc x rest

/-- Stable sort by weakly descending score, ties kept in input order (the
input order is the `HashMap` iteration order of `page_scores`). -/
def sortPageScoresDesc (l : List ((Nat × Nat) × ℚ)) : List ((Nat × Nat) × ℚ) :=
  l.foldr insertDesc []

/-! ## BM25 search (src/lava/search.rs, `search_bm25_async`, lines 167–297)

An index file is modelled after decoding: the three trailer integers are the
structure's fields, and `decode f t` is the value that
`read_range_and_decompress(f, t)` produces after the byte fetch succeeds
(zstd + bincode failures surface as `DecodeErr`).  Per §4.3 of the spec
(`src/lava/plist.rs` is not under `src/`), `PListChunk::search_compressed` is
abstracted as `searchCompressed chunk_id offsets`, `none` modelling the
`.unwrap()` panic on a malformed chunk. -/

/-- Errors `read_range_and_decompress` can produce beyond the range guard:
transport I/O, or zstd/bincode parse failures. -/
inductive DecodeErr : Type
  | io : IoKind → DecodeErr
  | parse : String → DecodeErr
deriving DecidableEq, Repr

def DecodeErr.toLava : DecodeErr → LavaError
  | .io k => .Io k
  | .parse s => .Parse s

structure Bm25File : Type where
  fileSize : Nat
  termDictOffset : Nat
  plistOffsetsOffset : Nat
  numDocuments : Nat
  decode : Nat → Nat → Except DecodeErr (List Nat)
  searchCompressed : Nat → List Nat → Option (List (List Nat))

/-- The model of `read_range_and_decompress(from, to)` on a modelled file: the `read_range`
guard (`from >= to` is `Io(InvalidData)`), then the decode outcome. -/
def rrd (f : Bm25File) (frm upTo : Nat) : Res (List Nat) :=
  if frm ≥ upTo then .error (.err (.Io .invalidData))
  else
    match f.decode frm upTo with
    | .error e => .error (.err e.toLava)
    | .ok v => .ok v

/-- The `to` argument the source passes when reading the posting-list offsets
table: `file_sizes[i] as u64 - compressed_plist_offsets_offset - 24`
(src/lava/search.rs line 208) — a length-shaped expression used as an end
offset. -/
def bm25PlistRangeTo (fileSize plistOffsetsOffset : Nat) : Nat :=
  u64sub (u64sub fileSize plistOffsetsOffset) 24

/-- Modelled from the spec: the end offset the spec requires for the same
read, `file_size - 24` (the compressed payload is
`[compressed_plist_offsets_offset, file_size - 24)`). -/
def bm25PlistRangeToSpec (fileSize : Nat) : Nat := fileSize - 24

/-- The per-file accumulation
`total_token_counts[t] += token_counts[t as usize]` over the query tokens, in
query order; an out-of-range token id is an out-of-bounds index panic. -/
def accumCounts (counts : List Nat) : List Nat → (Nat → Nat) → Res (Nat → Nat)
  | [], tc => .ok tc
  | t :: rest, tc =>
    match counts.get? t with
    | none => .error (.panic "index out of bounds: token_counts")
    | some c => accumCounts counts rest (Function.update tc t (tc t + c))

/-- Append a `(token, offset)` entry under `(file_id, chunk_id)`, preserving
first-insertion key order and per-key push order (the source uses
`HashMap::entry(..).or_insert_with(Vec::new).push(..)`; the map's iteration
order is unspecified, the model fixes first-insertion order). -/
def pushChunk (key : Nat × Nat) (v : Nat × Nat) :
    List ((Nat × Nat) × List (Nat × Nat)) → List ((Nat × Nat) × List (Nat × Nat))
  | [] => [(key, [v])]
  | (k', vs) :: rest =>
    if k' = key then (k', vs ++ [v]) :: rest else (k', vs) :: pushChunk key v rest

/-- Locate every query token's chunk (in query order) and group by
`(file_id, chunk_id)`. -/
def locateAll (tdl : List Nat) (fid : Nat) : List Nat →
    List ((Nat × Nat) × List (Nat × Nat)) → Res (List ((Nat × Nat) × List (Nat × Nat)))
  | [], acc => .ok acc
  | t :: rest, acc =>
    match locateChunk tdl t with
    | .error e => .error e
    | .ok (idx, off) => locateAll tdl fid rest (pushChunk (fid, idx) (t, off) acc)

structure Bm25State : Type where
  totalCounts : Nat → Nat
  totalDocs : Nat
  allPlistOffsets : List (List Nat)
  chunks : List ((Nat × Nat) × List (Nat × Nat))

def bm25InitState : Bm25State :=
  { totalCounts := fun _ => 0, totalDocs := 0, allPlistOffsets := [], chunks := [] }

/-- Phase 1 for one file: term dictionary, token-count accumulation,
posting-list offsets (note the end offset `bm25PlistRangeTo`), the parity
check, and chunk location for every query token. -/
def bm25File (q : List Nat) (fid : Nat) (f : Bm25File) (st : Bm25State) : Res Bm25State := do
  let tokenCounts ← rrd f f.termDictOffset f.plistOffsetsOffset
  let tc ← accumCounts tokenCounts q st.totalCounts
  let plistOffsets ← rrd f f.plistOffsetsOffset (bm25PlistRangeTo f.fileSize f.plistOffsetsOffset)
  if plistOffsets.length % 2 ≠ 0 then .error (.err (.Parse "data corruption"))
  else do
    let chunks ← locateAll (plistOffsets.drop (plistOffsets.length / 2)) fid q st.chunks
    .ok { totalCounts := tc, totalDocs := st.totalDocs + f.numDocuments,
          allPlistOffsets := st.allPlistOffsets ++ [plistOffsets], chunks := chunks }

def bm25Load (q : List Nat) : List (Nat × Bm25File) → Bm25State → Res Bm25State
  | [], st => .ok st
  | (fid, f) :: rest, st => do
    let st' ← bm25File q fid f st
    bm25Load q rest st'

/-- The weighted-IDF loop: `query_weights[i]` panics when the weights vector
is shorter than the tokens vector.  The `f32` expression
`w * ((N - cf + 0.5) / (cf + 0.5) + 1).ln()` is modelled as
`w * factor N cf` with the factor abstract — no claim depends on its value. -/
def buildIdf (w : List ℚ) (factor : Nat → Nat → ℚ) (totalDocs : Nat) (tc : Nat → Nat) :
    List (Nat × Nat) → (Nat → ℚ) → Res (Nat → ℚ)
  | [], idf => .ok idf
  | (i, t) :: rest, idf =>
    match w.get? i with
    | none => .error (.panic "index out of bounds: query_weights")
    | some wi => buildIdf w factor totalDocs tc rest (Function.update idf t (wi * factor totalDocs (tc t)))

/-- The upsert `page_scores.entry(key).and_modify(|e| *e += v).or_insert(v)`, on an
association list in first-insertion order. -/
def upsertAdd (key : Nat × Nat) (v : ℚ) :
    List ((Nat × Nat) × ℚ) → List ((Nat × Nat) × ℚ)
  | [] => [(key, v)]
  | (k', v') :: rest =>
    if k' = key then (k', v' + v) :: rest else (k', v') :: upsertAdd key v rest

/-- Consume one token's posting list `[uid, score, uid, score, ...]`
(length already asserted even), accumulating `idf[token] * page_score`. -/
def scorePairs (fid : Nat) (wt : ℚ) : List Nat → List ((Nat × Nat) × ℚ) → List ((Nat × Nat) × ℚ)
  | u :: s :: rest, ps => scorePairs fid wt rest (upsertAdd (fid, u) (wt * (s : ℚ)) ps)
  | _, ps => ps

/-- Walk the `search_compressed` results next to their tokens:
`tokens[i]` indexing, the `assert_eq!(result.len() % 2, 0)`, and scoring. -/
def scoreResults (fid : Nat) (idf : Nat → ℚ) :
    List (List Nat) → List Nat → List ((Nat × Nat) × ℚ) → Res (List ((Nat × Nat) × ℚ))
  | [], _, ps => .ok ps
  | r :: rs, tokens, ps =>
    match tokens with
    | [] => .error (.panic "index out of bounds: tokens")
    | t :: ts =>
      if r.length % 2 ≠ 0 then .error (.panic "assertion failed: result.len() % 2 == 0")
      else scoreResults fid idf rs ts (scorePairs fid (idf t) r ps)

/-- Phase 3 for one `(file_id, chunk_id)` group: the two offset-table
indexings, the chunk `read_range` guard, the `search_compressed` unwrap, and
the scoring of each token's result slice. -/
def scoreChunk (files : List Bm25File) (apo : List (List Nat)) (idf : Nat → ℚ)
    (key : Nat × Nat) (tokOffs : List (Nat × Nat)) (ps : List ((Nat × Nat) × ℚ)) :
    Res (List ((Nat × Nat) × ℚ)) := do
  match files.get? key.1, apo.get? key.1 with
  | some f, some po =>
    match po.get? key.2, po.get? (key.2 + 1) with
    | some a, some b =>
      if a ≥ b then .error (.err (.Io .invalidData))
      else
        match f.searchCompressed key.2 (tokOffs.map (·.2)) with
        | none => .error (.panic "called Result unwrap on an Err value")
        | some results => scoreResults key.1 idf results (tokOffs.map (·.1)) ps
    | _, _ => .error (.panic "index out of bounds: plist_offsets")
  | _, _ => .error (.panic "index out of bounds: readers")

def scoreChunks (files : List Bm25File) (apo : List (List Nat)) (idf : Nat → ℚ) :
    List ((Nat × Nat) × List (Nat × Nat)) → List ((Nat × Nat) × ℚ) → Res (List ((Nat × Nat) × ℚ))
  | [], ps => .ok ps
  | (key, tokOffs) :: rest, ps => do
    let ps' ← scoreChunk files apo idf key tokOffs ps
    scoreChunks files apo idf rest ps'

/-- The whole of `search_bm25_async` end to end (files already paired with their index in
the input vector, which is the `file_id`). -/
def searchBm25 (files : List Bm25File) (q : List Nat) (w : List ℚ) (k : Nat)
    (factor : Nat → Nat → ℚ) : Res (List (Nat × Nat)) := do
  let st ← bm25Load q files.enum bm25InitState
  let idf ← buildIdf w factor st.totalDocs st.totalCounts q.enum (fun _ => 0)
  let ps ← scoreChunks files st.allPlistOffsets idf st.chunks []
  .ok (((sortPageScoresDesc ps).take k).map (·.1))

/-! ## Substring search (src/lava/search.rs, `search_substring_async`,
lines 55–165, and `search_lava_substring` / `get_tokenizer_async`)

A substring index file is modelled after decoding.  `FM_CHUNK_TOKS` is a
format constant defined in `src/lava/constants.rs`, which is not under
`src/`; modelled from the spec (§3: a fixed power of two) as an explicit
parameter `F` of every definition.  Per §4.4 (`src/lava/fm_chunk.rs` is not
under `src/`), `FMChunk::new` over the byte range of chunk `c` followed by
`.search(t, p)` is modelled as the count of `t` in the first `p` positions of
chunk `c` of the file's BWT; per §3/§4.6, decompressing the posting-list
bytes of chunk `c` yields the uid-per-BWT-position list of that chunk.  The
offset tables are kept as lists because their *indexing* is what the source
does with them (out of bounds is a panic) together with the `read_range`
`from >= to` guard on the byte spans they delimit; table loads themselves are
modelled as succeeding (the file is modelled post-decode). -/

structure SubFile : Type where
  n : Nat
  bwt : List Nat
  plist : List Nat
  counts : List Nat
  fmOffsets : List Nat
  plistOffsets : List Nat
  tokBytes : List Nat
deriving DecidableEq, Repr

/-- Option-to-`Res` with an out-of-bounds panic message. -/
def og {α : Type} (o : Option α) (msg : String) : Res α :=
  match o with
  | none => .error (.panic msg)
  | some a => .ok a

/-- The `read_range` guard for a byte span taken from an offset table. -/
def rrGuard (frm upTo : Nat) : Res Unit :=
  if frm ≥ upTo then .error (.err (.Io .invalidData)) else .ok ()

/-- Modelled from the spec (§4.4): the rank query of one FM chunk — the count
of `t` in positions `[0, p)` of the chunk's BWT slice. -/
def fmRank (chunk : List Nat) (t p : Nat) : Nat :=
  ((chunk.take p).filter (fun x => x = t)).length

/-- BWT slice covered by FM chunk `c`. -/
def bwtChunk (F : Nat) (f : SubFile) (c : Nat) : List Nat :=
  (f.bwt.drop (c * F)).take F

/-- One backward-search step for token `t` on interval `[s, e)`: fetch the two
FM chunk byte spans (indexing `fm_chunk_offsets` at `p / F` and `p / F + 1`,
reading `[start_byte, end_byte)`), then
`C[t] + rank(t, p mod F)` for both ends.  The source indexes
`cumulative_counts[t]` inside each of the two sum expressions; the lookups are
identical, so the model performs one. -/
def stepToken (F : Nat) (f : SubFile) (t s e : Nat) : Res (Nat × Nat) := do
  let sb ← og (f.fmOffsets.get? (s / F)) "index out of bounds: fm_chunk_offsets"
  let se ← og (f.fmOffsets.get? (s / F + 1)) "index out of bounds: fm_chunk_offsets"
  let _ ← rrGuard sb se
  let eb ← og (f.fmOffsets.get? (e / F)) "index out of bounds: fm_chunk_offsets"
  let ee ← og (f.fmOffsets.get? (e / F + 1)) "index out of bounds: fm_chunk_offsets"
  let _ ← rrGuard eb ee
  let cnt ← og (f.counts.get? t) "index out of bounds: cumulative_counts"
  .ok (cnt + fmRank (bwtChunk F f (s / F)) t (s % F),
       cnt + fmRank (bwtChunk F f (e / F)) t (e % F))

/-- The backward-search loop over the already-reversed query (the source
iterates `(0..query.len()).rev()`), with the in-loop `start >= end` break. -/
def backward (F : Nat) (f : SubFile) : List Nat → Nat → Nat → Res (Nat × Nat)
  | [], s, e => .ok (s, e)
  | t :: rest, s, e => do
    let se ← stepToken F f t s e
    if se.1 ≥ se.2 then .ok se else backward F f rest se.1 se.2

/-- Steps 3–4 of §4.6: initialise `[0, n)` and consume the query right to
left. -/
def searchInterval (F : Nat) (f : SubFile) (query : List Nat) : Res (Nat × Nat) :=
  backward F f query.reverse 0 f.n

/-- The posting-list uid chunks of a file: chunk `i` covers BWT positions
`[i*F, (i+1)*F)` (the last chunk may be shorter). -/
def chunksOf (F : Nat) (l : List Nat) : List (List Nat) :=
  (List.range ((l.length + F - 1) / F)).map fun i => (l.drop (i * F)).take F

/-- Decompression + bincode of posting-list chunk `c`'s byte span, modelled as
the chunk's uid list; a span outside the decoded posting-list region is an
aborted slice. -/
def chunkUids (F : Nat) (f : SubFile) (c : Nat) : Res (List Nat) :=
  og ((chunksOf F f.plist).get? c) "posting list chunk slice out of range"

/-- Iteration `i` of the uid-mapping loop (src/lava/search.rs lines 122–154):
the two in-loop `posting_list_offsets` indexings, the chunk decode, and the
slice the source takes — `[s%F .. e%F]` for a single-chunk hit, the suffix of
the first chunk, the prefix of the last chunk, full interior chunks. -/
def sliceAt (F : Nat) (f : SubFile) (s e total i : Nat) : Res (List Nat) := do
  let _ ← og (f.plistOffsets.get? (s / F + i)) "index out of bounds: posting_list_offsets"
  let _ ← og (f.plistOffsets.get? (s / F + i + 1)) "index out of bounds: posting_list_offsets"
  let ch ← chunkUids F f (s / F + i)
  if i = 0 then
    if total = 1 then .ok ((ch.take (e % F)).drop (s % F)) else .ok (ch.drop (s % F))
  else if i = total - 1 then .ok (ch.take (e % F))
  else .ok ch

def fileSlicesGo (F : Nat) (f : SubFile) (s e total : Nat) : Nat → Nat → Res (List (List Nat))
  | _, 0 => .ok []
  | i, r + 1 => do
    let u ← sliceAt F f s e total i
    let rest ← fileSlicesGo F f s e total (i + 1) r
    .ok (u :: rest)

/-- Step 5 of §4.6 without the early-termination check: the
`posting_list_offsets[s/F]` and `posting_list_offsets[e/F + 1]` indexings, the
single `read_range` across them, and the `total_chunks = e/F - s/F + 1` slice
extractions.  The source decodes chunk `i` inside the loop; the model
materialises the slices up front (the in-loop indexings are included per
slice, and cannot fail once the two pre-loop indexings succeed). -/
def fileSlices (F : Nat) (f : SubFile) (s e : Nat) : Res (List (List Nat)) := do
  let so ← og (f.plistOffsets.get? (s / F)) "index out of bounds: posting_list_offsets"
  let eo ← og (f.plistOffsets.get? (e / F + 1)) "index out of bounds: posting_list_offsets"
  let _ ← rrGuard so eo
  fileSlicesGo F f s e (e / F - s / F + 1) 0 (e / F - s / F + 1)

/-- The `(file_id, uid)` pairs of one decoded slice. -/
def pairsOf (fid : Nat) (uids : List Nat) : Finset (Nat × Nat) :=
  (uids.map fun u => (fid, u)).toFinset

/-- The uid-insertion loop over the slices of one file: insert a whole slice,
then `if all_uids.len() > k { break; }`. -/
def mapLoop (k fid : Nat) : List (List Nat) → Finset (Nat × Nat) → Finset (Nat × Nat)
  | [], acc => acc
  | u :: rest, acc =>
    let acc' := acc ∪ pairsOf fid u
    if k < acc'.card then acc' else mapLoop k fid rest acc'

/-- Union of all slices of one file into an accumulator (the untruncated
contribution of the file). -/
def unionFrom (fid : Nat) (slices : List (List Nat)) (acc : Finset (Nat × Nat)) :
    Finset (Nat × Nat) :=
  slices.foldl (fun a u => a ∪ pairsOf fid u) acc

/-- The per-file loop of `search_substring_async`: backward search, the
`start >= end` continue, uid mapping with the per-chunk break, then the
per-file `if all_uids.len() > k { break; }`. -/
def goFiles (F k : Nat) (query : List Nat) :
    List (Nat × SubFile) → Finset (Nat × Nat) → Res (Finset (Nat × Nat))
  | [], acc => .ok acc
  | (fid, f) :: rest, acc => do
    let se ← searchInterval F f query
    if se.1 ≥ se.2 then goFiles F k query rest acc
    else do
      let slices ← fileSlices F f se.1 se.2
      let acc' := mapLoop k fid slices acc
      if k < acc'.card then .ok acc' else goFiles F k query rest acc'

/-- The whole of `search_substring_async` over the files (paired with their `file_id`).
The source returns `all_uids.into_iter().collect()`, a vector in unspecified
hash order; the model returns the set itself. -/
def searchSubstringAsync (F : Nat) (files : List SubFile) (query : List Nat) (k : Nat) :
    Res (Finset (Nat × Nat)) :=
  goFiles F k query files.enum ∅

/-- The untruncated contribution of one file: the `(file_id, uid)` pairs of
the posting-list positions of its final backward-search interval (empty when
the interval collapses). -/
def filePairs (F : Nat) (query : List Nat) (fid : Nat) (f : SubFile) :
    Res (Finset (Nat × Nat)) := do
  let se ← searchInterval F f query
  if se.1 ≥ se.2 then .ok ∅
  else do
    let slices ← fileSlices F f se.1 se.2
    .ok (unionFrom fid slices ∅)

def answerGo (F : Nat) (query : List Nat) :
    List (Nat × SubFile) → Finset (Nat × Nat) → Res (Finset (Nat × Nat))
  | [], acc => .ok acc
  | (fid, f) :: rest, acc => do
    let s ← filePairs F query fid f
    answerGo F query rest (acc ∪ s)

/-- The correct answer of a substring query against the modelled files: the
union over the files of the pairs of their final backward-search intervals
(under the FM-index contract these are exactly the documents containing the
query). -/
def substringAnswer (F : Nat) (files : List SubFile) (query : List Nat) :
    Res (Finset (Nat × Nat)) :=
  answerGo F query files.enum ∅

/-! ### Tokenizer validation (`get_tokenizer_async`, lines 21–53) -/

/-- The message of the `assert!` that fires on differing tokenizers. -/
def tokMismatchMsg : String :=
  "detected different tokenizers between different lava files"

/-- The per-reader loop of `get_tokenizer_async`: read the tokenizer size and
bytes (`read_range(8, 8 + size)` fails its guard when the size is zero),
remember the first file's bytes, `assert!` equality for the rest; afterwards
`compressed_tokenizer.unwrap()` panics when there was no file.  Decompression
and `Tokenizer::from_bytes` are external (§6.2); the model returns the
validated compressed bytes. -/
def tokLoop : List SubFile → Option (List Nat) → Res (List Nat)
  | [], none => .error (.panic "called Option unwrap on a None value")
  | [], some v => .ok v
  | f :: rest, acc =>
    if f.tokBytes.length = 0 then .error (.err (.Io .invalidData))
    else
      match acc with
      | some v =>
        if f.tokBytes = v then tokLoop rest (some v)
        else .error (.panic tokMismatchMsg)
      | none => tokLoop rest (some f.tokBytes)

def getTokenizerBytes (files : List SubFile) : Res (List Nat) :=
  tokLoop files none

/-- The model of `search_lava_substring` after tokenisation: validate the tokenizer across
the files, then run the substring search.  Lowercasing, encoding and
skip-token removal happen inside the external tokenizer (§4.8/§6.2); the
model receives the resulting token ids. -/
def searchLavaSubstring (F : Nat) (files : List SubFile) (queryTokens : List Nat) (k : Nat) :
    Res (Finset (Nat × Nat)) := do
  let _ ← getTokenizerBytes files
  searchSubstringAsync F files queryTokens k

/-! ## Concrete instances used to exercise the models -/

/-- A well-formed two-chunk BM25 file: trailer `(100, 200, 5)`, term
dictionary of ten counts over `[100, 200)`, posting-list offsets
`[300, 400, 1, 3]` over `[200, 576)` (the end offset the source computes for
`file_size = 800`), and a first posting chunk holding `(uid 10, score 2)`. -/
def wDecode : Nat → Nat → Except DecodeErr (List Nat) := fun a b =>
  if a = 100 ∧ b = 200 then .ok [4, 4, 4, 4, 4, 4, 4, 4, 4, 4]
  else if a = 200 ∧ b = 576 then .ok [300, 400, 1, 3]
  else .error (.parse "unexpected range")

def wSearchComp : Nat → List Nat → Option (List (List Nat)) := fun c _ =>
  if c = 0 then some [[10, 2]] else none

def wfile : Bm25File :=
  { fileSize := 800, termDictOffset := 100, plistOffsetsOffset := 200, numDocuments := 5,
    decode := wDecode, searchCompressed := wSearchComp }

/-- A copy of `wfile` with its term-dictionary offset moved past the posting-list
offsets offset, so the very first `read_range` fails its guard. -/
def wfileBad : Bm25File :=
  { fileSize := 800, termDictOffset := 300, plistOffsetsOffset := 200, numDocuments := 5,
    decode := wDecode, searchCompressed := wSearchComp }

/-- A substring file for `F = 4`: six BWT positions (two chunks), uid list
`[10, 20, 30, 40, 50, 60]`, a single-token vocabulary. -/
def sfileA : SubFile :=
  { n := 6, bwt := [0, 0, 0, 0, 0, 0], plist := [10, 20, 30, 40, 50, 60], counts := [0],
    fmOffsets := [100, 101, 102], plistOffsets := [200, 201, 202], tokBytes := [1] }

/-- A substring file for `F = 2` whose BWT length is an exact multiple of
`F`, with the invariant table length `ceil(n/F) + 1 = n/F + 1 = 2`. -/
def sfileC : SubFile :=
  { n := 2, bwt := [0, 0], plist := [7, 8], counts := [0],
    fmOffsets := [10, 20], plistOffsets := [30, 40], tokBytes := [1] }

/-- A copy of `sfileC` with different embedded tokenizer bytes. -/
def sfileD : SubFile :=
  { n := 2, bwt := [0, 0], plist := [7, 8], counts := [0],
    fmOffsets := [10, 20], plistOffsets := [30, 40], tokBytes := [2] }

/-! # Theorems -/

/-! ## C7 / C8 — `read_range` -/

theorem readRangeLoop_zero_read (frm total : Nat) :
    ∀ fuel current acc, current < total →
      readRangeLoop (fun _ => []) frm total fuel current acc = none := by
  intro fuel
  induction fuel with
  | zero => intro current acc h; simp [readRangeLoop, h]
  | succ m ih =>
    intro current acc h
    simpa [readRangeLoop, h] using ih current acc h

theorem readRangeLoop_length (read : Nat → List Nat) (frm total : Nat) :
    ∀ fuel current acc res, acc.length = current → current ≤ total →
      readRangeLoop read frm total fuel current acc = some res → res.length = total := by
  intro fuel
  induction fuel with
  | zero =>
    intro current acc res hlen hle h
    by_cases hc : current < total
    · simp [readRangeLoop, hc] at h
    · simp [readRangeLoop, hc] at h
      subst h
      omega
  | succ m ih =>
    intro current acc res hlen hle h
    by_cases hc : current < total
    · simp only [readRangeLoop, if_pos hc] at h
      refine ih _ _ res ?_ ?_ h
      · simp [hlen]
      · have := List.length_take_le (total - current) (read (frm + current))
        omega
    · simp only [readRangeLoop, if_neg hc] at h
      cases h
      omega

/-- C7: the claim says `read_range(from, to)` always terminates — returning
exactly `to − from` bytes or failing with `Interrupted` on persistent
zero-byte reads.  The code is wrong: a reader that persistently returns zero
bytes makes `while current < total` spin forever (no fuel suffices), because
`current` never advances; the post-loop `res.len() < total` check that would
produce `Interrupted` is unreachable (a normally-exited loop has read exactly
`total` bytes), so `read_range` can never return `Interrupted`.  When the
loop does exit, the result is exactly `to − from` bytes, as claimed. -/
theorem read_range_nontermination :
    (∀ frm upTo fuel, frm < upTo →
        readRange (fun _ => []) frm upTo fuel = none) ∧
    (∀ read frm upTo fuel res, readRange read frm upTo fuel = some (.ok res) →
        res.length = upTo - frm) ∧
    (∀ read frm upTo fuel,
        readRange read frm upTo fuel ≠ some (.error (.err (.Io .interrupted)))) := by
  refine ⟨?_, ?_, ?_⟩
  · intro frm upTo fuel h
    have hg : ¬ frm ≥ upTo := by omega
    simp [readRange, hg, readRangeLoop_zero_read frm (upTo - frm) fuel 0 [] (by omega)]
  · intro read frm upTo fuel res h
    by_cases hg : frm ≥ upTo
    · simp [readRange, hg] at h
    · simp only [readRange, if_neg hg] at h
      cases hl : readRangeLoop read frm (upTo - frm) fuel 0 [] with
      | none => simp [hl] at h
      | some v =>
        have hv := readRangeLoop_length read frm (upTo - frm) fuel 0 [] v rfl (by omega) hl
        simp [hl, hv] at h
        cases h
        exact hv
  · intro read frm upTo fuel h
    by_cases hg : frm ≥ upTo
    · simp [readRange, hg] at h
    · simp only [readRange, if_neg hg] at h
      cases hl : readRangeLoop read frm (upTo - frm) fuel 0 [] with
      | none => simp [hl] at h
      | some v =>
        have hv := readRangeLoop_length read frm (upTo - frm) fuel 0 [] v rfl (by omega) hl
        simp [hl, hv] at h

theorem read_range_nontermination_witness :
    readRange (fun _ => []) 0 1 5 = none ∧
    ([7] : List Nat).length = 1 - 0 ∧
    readRange (fun _ => [7]) 0 1 3 ≠ some (.error (.err (.Io .interrupted))) :=
  ⟨read_range_nontermination.1 0 1 5 (by decide),
   read_range_nontermination.2.1 (fun _ => [7]) 0 1 3 [7] (by decide),
   read_range_nontermination.2.2 (fun _ => [7]) 0 1 3⟩

/-- C8 (counterexample): `read_range(5, 3)` fails with
`LavaError::Io(ErrorKind::InvalidData)`, not with an `InvalidInput` error as
the claim states. -/
theorem read_range_invalid_data_cex :
    readRange (fun _ => []) 5 3 7 = some (.error (.err (.Io .invalidData))) ∧
    IoKind.invalidData ≠ IoKind.invalidInput := by
  decide

/-- C8 (amended): for every `from ≥ to`, `read_range(from, to)` fails with an
I/O error of kind `InvalidData`. -/
theorem read_range_invalid_data (read : Nat → List Nat) (frm upTo fuel : Nat)
    (h : upTo ≤ frm) :
    readRange read frm upTo fuel = some (.error (.err (.Io .invalidData))) := by
  have hg : frm ≥ upTo := h
  simp [readRange, hg]

theorem read_range_invalid_data_witness :
    readRange (fun _ => []) 5 3 7 = some (.error (.err (.Io .invalidData))) :=
  read_range_invalid_data (fun _ => []) 5 3 7 (by decide)

/-! ## C2 — the posting-list offsets byte range in `search_bm25_async` -/

/-- C2: the claim (and the spec's §9 note 2) requires the compressed
posting-list offsets payload to be the byte range
`[compressed_plist_offsets_offset, file_size − 24)`.  The source instead
passes `file_size − compressed_plist_offsets_offset − 24` — a length — as the
end offset.  At `file_size = 1000`, `offset = 30` the code reads up to byte
946 where the claim requires 976; the parity validation the claim mentions is
present (`bm25File`).  The model's loader (`bm25File`, hence `searchBm25`)
uses the source's expression `bm25PlistRangeTo`. -/
theorem bm25_plist_range_code_bug :
    bm25PlistRangeTo 1000 30 = 946 ∧
    bm25PlistRangeToSpec 1000 = 976 ∧
    (946 : Nat) ≠ 976 := by
  refine ⟨?_, by decide, by decide⟩
  decide

/-! ## C4 — chunk location by binary search -/

theorem bsGo_spec (b : List Nat) (t : Nat) :
    ∀ fuel left right, left ≤ right → right ≤ b.length → right - left ≤ fuel →
      (0 < left → b.getD (left - 1) 0 < t) →
      (right < b.length → t < b.getD right 0) →
      (∀ idx, bsGo b t fuel left right = .found idx →
          left ≤ idx ∧ idx < right ∧ b.getD idx 0 = t) ∧
      (∀ idx, bsGo b t fuel left right = .notFound idx →
          left ≤ idx ∧ idx ≤ right ∧ (0 < idx → b.getD (idx - 1) 0 < t) ∧
          (idx < b.length → t < b.getD idx 0)) := by
  intro fuel
  induction fuel with
  | zero =>
    intro left right hlr hrl hf hl hr
    have heq : left = right := by omega
    constructor
    · intro idx h; cases h
    · intro idx h
      cases h
      exact ⟨le_refl _, by omega, hl, by rw [heq]; exact hr⟩
  | succ m ih =>
    intro left right hlr hrl hf hl hr
    by_cases hc : left < right
    · have hmid1 : left ≤ left + (right - left) / 2 := by omega
      have hmid2 : left + (right - left) / 2 < right := by omega
      by_cases hx : b.getD (left + (right - left) / 2) 0 < t
      · have hrec := ih (left + (right - left) / 2 + 1) right (by omega) hrl (by omega)
          (by intro _; simpa using hx) hr
        constructor
        · intro idx h
          simp only [bsGo, if_pos hc, if_pos hx] at h
          have := hrec.1 idx h
          exact ⟨by omega, this.2.1, this.2.2⟩
        · intro idx h
          simp only [bsGo, if_pos hc, if_pos hx] at h
          have := hrec.2 idx h
          exact ⟨by omega, this.2.1, this.2.2.1, this.2.2.2⟩
      · by_cases hx2 : t < b.getD (left + (right - left) / 2) 0
        · have hrec := ih left (left + (right - left) / 2) hmid1 (by omega) (by omega) hl
            (by intro _; exact hx2)
          constructor
          · intro idx h
            simp only [bsGo, if_pos hc, if_neg hx, if_pos hx2] at h
            have := hrec.1 idx h
            exact ⟨this.1, by omega, this.2.2⟩
          · intro idx h
            simp only [bsGo, if_pos hc, if_neg hx, if_pos hx2] at h
            have := hrec.2 idx h
            exact ⟨this.1, by omega, this.2.2.1, this.2.2.2⟩
        · constructor
          · intro idx h
            simp only [bsGo, if_pos hc, if_neg hx, if_neg hx2] at h
            cases h
            exact ⟨hmid1, hmid2, by omega⟩
          · intro idx h
            simp only [bsGo, if_pos hc, if_neg hx, if_neg hx2] at h
            exact BsResult.noConfusion h
    · have heq : left = right := by omega
      constructor
      · intro idx h
        simp only [bsGo, if_neg hc] at h
        exact BsResult.noConfusion h
      · intro idx h
        simp only [bsGo, if_neg hc] at h
        cases h
        exact ⟨le_refl _, by omega, hl, by rw [heq]; exact hr⟩

/-- C4 (counterexample): with the non-decreasing boundary list `[0, 5, 5]`
and token `5` (so `b[0] ≤ t`), the midpoint search returns `Ok(1)` and the
source uses `chunk_id = 1`, while the largest index with `b[j] ≤ 5` is `2`. -/
theorem locate_chunk_cex :
    locateChunk [0, 5, 5] 5 = .ok (1, 0) ∧
    largestLE [0, 5, 5] 5 = some 2 ∧ (1 : Nat) ≠ 2 := by
  decide


theorem locateChunk_found (b : List Nat) (t idx : Nat)
    (h : rustBinarySearch b t = .found idx) : locateChunk b t = .ok (idx, 0) := by
  unfold locateChunk
  rw [h]

theorem locateChunk_notFound_some (b : List Nat) (t idx bv : Nat)
    (h : rustBinarySearch b t = .notFound idx) (h0 : idx ≠ 0)
    (hq : b.get? (idx - 1) = some bv) : locateChunk b t = .ok (idx - 1, t - bv) := by
  unfold locateChunk
  rw [h]
  have hq2 : b[idx - 1]? = some bv := by rw [← List.get?_eq_getElem?]; exact hq
  simp [h0, hq2]

theorem locateChunk_notFound_zero (b : List Nat) (t : Nat)
    (h : rustBinarySearch b t = .notFound 0) :
    locateChunk b t = .error (.panic "attempt to subtract with overflow") := by
  unfold locateChunk
  rw [h]
  rfl

/-- What the locator actually guarantees on a non-decreasing boundary list
with `b[0] ≤ t`: success with some `(j, t − b[j])`, `b[j] ≤ t`, `b[j]` the
maximum boundary `≤ t`, and `j` the largest such index when the boundaries
are strictly increasing. -/
theorem locateChunk_spec (b : List Nat) (t : Nat)
    (hs : ∀ i j, i ≤ j → j < b.length → b.getD i 0 ≤ b.getD j 0)
    (hlen : 0 < b.length) (h0 : b.getD 0 0 ≤ t) :
    (∃ j, locateChunk b t = .ok (j, t - b.getD j 0)) ∧
    (∀ j off, locateChunk b t = .ok (j, off) →
      off = t - b.getD j 0 ∧ j < b.length ∧ b.getD j 0 ≤ t ∧
      (∀ i, i < b.length → b.getD i 0 ≤ t → b.getD i 0 ≤ b.getD j 0) ∧
      ((∀ i i', i < i' → i' < b.length → b.getD i 0 < b.getD i' 0) →
        ∀ i, i < b.length → b.getD i 0 ≤ t → i ≤ j)) := by
  have hspec := bsGo_spec b t (b.length + 1) 0 b.length (by omega) (le_refl _) (by omega)
    (by omega) (by omega)
  cases hbs : rustBinarySearch b t with
  | found idx =>
    have hf := hspec.1 idx hbs
    have hloc := locateChunk_found b t idx hbs
    have main : ∀ j off, locateChunk b t = .ok (j, off) →
        off = t - b.getD j 0 ∧ j < b.length ∧ b.getD j 0 ≤ t ∧
        (∀ i, i < b.length → b.getD i 0 ≤ t → b.getD i 0 ≤ b.getD j 0) ∧
        ((∀ i i', i < i' → i' < b.length → b.getD i 0 < b.getD i' 0) →
          ∀ i, i < b.length → b.getD i 0 ≤ t → i ≤ j) := by
      intro j off h
      rw [hloc] at h
      cases h
      refine ⟨by omega, hf.2.1, le_of_eq hf.2.2, ?_, ?_⟩
      · intro i _ hle
        rw [hf.2.2]
        exact hle
      · intro hstrict i hi hle
        by_contra hgt
        have hlt : b.getD idx 0 < b.getD i 0 := hstrict idx i (by omega) hi
        rw [hf.2.2] at hlt
        omega
    refine ⟨⟨idx, ?_⟩, main⟩
    rw [hloc, hf.2.2]
    simp
  | notFound idx =>
    have hnf := hspec.2 idx hbs
    have hidx : idx ≠ 0 := by
      intro h0'
      subst h0'
      have := hnf.2.2.2 hlen
      omega
    have hidxlt : idx - 1 < b.length := by omega
    cases hq : b.get? (idx - 1) with
    | none =>
      rw [List.get?_eq_none] at hq
      omega
    | some bv =>
      have hbv : bv = b.getD (idx - 1) 0 := by
        rw [List.getD_eq_get?, hq]
        rfl
      subst hbv
      have hloc := locateChunk_notFound_some b t idx _ hbs hidx hq
      have hjlt : b.getD (idx - 1) 0 < t := hnf.2.2.1 (by omega)
      have hmax : ∀ i, i < b.length → b.getD i 0 ≤ t → i ≤ idx - 1 := by
        intro i hi hle
        by_contra hgt
        have hile : idx ≤ i := by omega
        have h1 : t < b.getD idx 0 := hnf.2.2.2 (by omega)
        have h2 : b.getD idx 0 ≤ b.getD i 0 := hs idx i hile hi
        omega
      have main : ∀ j off, locateChunk b t = .ok (j, off) →
          off = t - b.getD j 0 ∧ j < b.length ∧ b.getD j 0 ≤ t ∧
          (∀ i, i < b.length → b.getD i 0 ≤ t → b.getD i 0 ≤ b.getD j 0) ∧
          ((∀ i i', i < i' → i' < b.length → b.getD i 0 < b.getD i' 0) →
            ∀ i, i < b.length → b.getD i 0 ≤ t → i ≤ j) := by
        intro j off h
        rw [hloc] at h
        cases h
        refine ⟨rfl, hidxlt, by omega, ?_, fun _ => hmax⟩
        intro i hi hle
        exact hs i (idx - 1) (hmax i hi hle) hidxlt
      exact ⟨⟨idx - 1, hloc⟩, main⟩

/-- C4 (amended): for a non-decreasing boundary list with `b[0] ≤ t`, the
locator succeeds with some `(j, t − b[j])` where `b[j] ≤ t`; the boundary
value `b[j]` is the maximum boundary `≤ t` — so the within-chunk offset
equals the one the claim computes — but `j` itself need not be the largest
such index when duplicates equal to `t` exist; when the boundaries are
strictly increasing, `j` is exactly the largest index with `b[j] ≤ t`. -/
theorem locate_chunk_amended (b : List Nat) (t : Nat)
    (hs : ∀ i j, i ≤ j → j < b.length → b.getD i 0 ≤ b.getD j 0)
    (hlen : 0 < b.length) (h0 : b.getD 0 0 ≤ t) :
    (∃ j, locateChunk b t = .ok (j, t - b.getD j 0)) ∧
    (∀ j off, locateChunk b t = .ok (j, off) →
      off = t - b.getD j 0 ∧ j < b.length ∧ b.getD j 0 ≤ t ∧
      (∀ i, i < b.length → b.getD i 0 ≤ t → b.getD i 0 ≤ b.getD j 0) ∧
      ((∀ i i', i < i' → i' < b.length → b.getD i 0 < b.getD i' 0) →
        ∀ i, i < b.length → b.getD i 0 ≤ t → i ≤ j)) :=
  locateChunk_spec b t hs hlen h0

theorem locate_chunk_amended_witness :
    (1 : Nat) = 6 - [0, 5, 7].getD 1 0 ∧ (1 : Nat) < [0, 5, 7].length ∧
    [0, 5, 7].getD 1 0 ≤ 6 :=
  have h := (locate_chunk_amended [0, 5, 7] 6
    (by
      intro i j hij hj
      simp only [List.length_cons, List.length_nil] at hj
      interval_cases j <;> interval_cases i <;> decide)
    (by decide) (by decide)).2 1 1 (by decide)
  ⟨h.1, h.2.1, h.2.2.1⟩

/-! ## C5 — BM25 result ordering -/

theorem insertDesc_eq_orderedInsert (s : List ((Nat × Nat) × ℚ)) (x : (Nat × Nat) × ℚ) :
    insertDesc x s = List.orderedInsert (fun a b => b.2 ≤ a.2) x s := by
  induction s with
  | nil => rfl
  | cons y s' ihs =>
    unfold insertDesc List.orderedInsert
    by_cases hc : y.2 ≤ x.2
    · simp [hc]
    · simp only [if_neg hc, hc, ite_false]
      rw [ihs]

theorem sortPageScoresDesc_eq_insertionSort (l : List ((Nat × Nat) × ℚ)) :
    sortPageScoresDesc l = List.insertionSort (fun a b => b.2 ≤ a.2) l := by
  induction l with
  | nil => rfl
  | cons x rest ih =>
    show insertDesc x (sortPageScoresDesc rest) = _
    rw [ih, insertDesc_eq_orderedInsert]
    rfl

/-- C5 (counterexample): the sort compares only scores and is stable, and the
input order is the unspecified `HashMap` iteration order.  With two pairs of
equal score, the iteration order `[(0,2), (0,1)]` yields output
`[(0,2), (0,1)]` — ties are *not* broken by ascending `(file_id, uid)` — and
the permuted iteration order of the very same map yields a different output
sequence, so two runs of the same query need not agree. -/
theorem bm25_sort_cex :
    sortPageScoresDesc [((0, 2), (1 : ℚ)), ((0, 1), 1)] = [((0, 2), 1), ((0, 1), 1)] ∧
    sortPageScoresDesc [((0, 1), (1 : ℚ)), ((0, 2), 1)] = [((0, 1), 1), ((0, 2), 1)] ∧
    List.Perm [((0, 2), (1 : ℚ)), ((0, 1), 1)] [((0, 1), 1), ((0, 2), 1)] ∧
    sortPageScoresDesc [((0, 2), (1 : ℚ)), ((0, 1), 1)] ≠
      sortPageScoresDesc [((0, 1), (1 : ℚ)), ((0, 2), 1)] := by
  refine ⟨by decide, by decide, ?_, by decide⟩
  decide

/-- C5 (amended): the returned list is ordered by weakly descending
accumulated score and is a permutation of the scored pairs; ties keep the
score map's (unspecified) iteration order, so no `(file_id, uid)` tie-break
and no cross-run determinism is guaranteed. -/
theorem bm25_sort_amended :
    (∀ l : List ((Nat × Nat) × ℚ),
      List.Sorted (fun a b => b.2 ≤ a.2) (sortPageScoresDesc l)) ∧
    (∀ l : List ((Nat × Nat) × ℚ), (sortPageScoresDesc l).Perm l) := by
  haveI : IsTotal ((Nat × Nat) × ℚ) (fun a b => b.2 ≤ a.2) := ⟨fun a b => le_total b.2 a.2⟩
  haveI : IsTrans ((Nat × Nat) × ℚ) (fun a b => b.2 ≤ a.2) :=
    ⟨fun _ _ _ hab hbc => le_trans hbc hab⟩
  constructor
  · intro l
    rw [sortPageScoresDesc_eq_insertionSort]
    exact List.sorted_insertionSort _ l
  · intro l
    rw [sortPageScoresDesc_eq_insertionSort]
    exact List.perm_insertionSort _ l

/-! ## C6 — input validation of `search_lava_bm25` / `search_lava_substring` -/

theorem bindOk {α β : Type} (a : α) (f : α → Res β) :
    (Except.ok a >>= f) = f a := rfl

theorem bindErr {α β : Type} (e : Fail) (f : α → Res β) :
    ((Except.error e : Res α) >>= f) = .error e := rfl

theorem searchBm25_k0 (files : List Bm25File) (q : List Nat) (w : List ℚ)
    (factor : Nat → Nat → ℚ) (r : List (Nat × Nat))
    (h : searchBm25 files q w 0 factor = .ok r) : r = [] := by
  unfold searchBm25 at h
  cases h1 : bm25Load q files.enum bm25InitState with
  | error e => rw [h1, bindErr] at h; cases h
  | ok st =>
    rw [h1, bindOk] at h
    cases h2 : buildIdf w factor st.totalDocs st.totalCounts q.enum (fun _ => 0) with
    | error e => rw [h2, bindErr] at h; cases h
    | ok idf =>
      rw [h2, bindOk] at h
      cases h3 : scoreChunks files st.allPlistOffsets idf st.chunks [] with
      | error e => rw [h3, bindErr] at h; cases h
      | ok ps =>
        rw [h3, bindOk] at h
        cases h
        rfl

theorem bm25File_empty_query (fid : Nat) (f : Bm25File) (st st' : Bm25State)
    (h : bm25File [] fid f st = .ok st') : st'.chunks = st.chunks := by
  unfold bm25File at h
  cases h1 : rrd f f.termDictOffset f.plistOffsetsOffset with
  | error e => rw [h1, bindErr] at h; cases h
  | ok counts =>
    rw [h1, bindOk] at h
    have hac : accumCounts counts [] st.totalCounts = .ok st.totalCounts := rfl
    rw [hac, bindOk] at h
    cases h2 : rrd f f.plistOffsetsOffset (bm25PlistRangeTo f.fileSize f.plistOffsetsOffset) with
    | error e => rw [h2, bindErr] at h; cases h
    | ok offs =>
      rw [h2, bindOk] at h
      by_cases hp : offs.length % 2 ≠ 0
      · rw [if_pos hp] at h; cases h
      · rw [if_neg hp] at h
        have hla : locateAll (offs.drop (offs.length / 2)) fid [] st.chunks = .ok st.chunks := rfl
        rw [hla, bindOk] at h
        cases h
        rfl

theorem bm25Load_empty_query :
    ∀ (fl : List (Nat × Bm25File)) (st st' : Bm25State),
      bm25Load [] fl st = .ok st' → st'.chunks = st.chunks := by
  intro fl
  induction fl with
  | nil =>
    intro st st' h
    cases h
    rfl
  | cons p rest ih =>
    intro st st' h
    obtain ⟨fid, f⟩ := p
    unfold bm25Load at h
    cases h1 : bm25File [] fid f st with
    | error e => rw [h1, bindErr] at h; cases h
    | ok st1 =>
      rw [h1, bindOk] at h
      rw [ih st1 st' h, bm25File_empty_query fid f st st1 h1]

theorem searchBm25_empty_query (files : List Bm25File) (w : List ℚ) (k : Nat)
    (factor : Nat → Nat → ℚ) (r : List (Nat × Nat))
    (h : searchBm25 files [] w k factor = .ok r) : r = [] := by
  unfold searchBm25 at h
  cases h1 : bm25Load [] files.enum bm25InitState with
  | error e => rw [h1, bindErr] at h; cases h
  | ok st =>
    have hch : st.chunks = [] := bm25Load_empty_query files.enum bm25InitState st h1
    rw [h1, bindOk] at h
    cases h2 : buildIdf w factor st.totalDocs st.totalCounts (List.enum []) (fun _ => 0) with
    | error e => rw [h2, bindErr] at h; cases h
    | ok idf =>
      rw [h2, bindOk] at h
      rw [hch] at h
      have h3 : scoreChunks files st.allPlistOffsets idf [] [] = .ok [] := rfl
      rw [h3, bindOk] at h
      cases h
      simp [sortPageScoresDesc]

/-- C6 (counterexample): the claim says `k = 0` (or an empty query) makes the
call fail with `InvalidInput`.  Neither `search_lava_bm25` nor
`search_lava_substring` validates its inputs: on a well-formed file a BM25
query with `k = 0` succeeds and returns `Ok` with an empty vector — no error
value of any kind. -/
theorem no_input_validation_cex :
    searchBm25 [wfile] [1] [1] 0 (fun _ _ => 1) = .ok [] ∧
    resultIsErrorValue (searchBm25 [wfile] [1] [1] 0 (fun _ _ => 1)) = false := by
  constructor
  · rfl
  · rfl

/-- C6 (amended): there is no `k = 0` / empty-query validation.  A BM25
search with `k = 0` that succeeds returns the empty list (it takes the first
`0` sorted results), as does one with an empty token list (nothing is ever
scored); a substring search with an empty token query proceeds to the
uid-mapping step over the full interval `[0, n)` and can return (many)
results — here four on a six-position index with `k = 0`. -/
theorem no_input_validation_amended :
    (∀ (files : List Bm25File) (q : List Nat) (w : List ℚ) (factor : Nat → Nat → ℚ)
        (r : List (Nat × Nat)), searchBm25 files q w 0 factor = .ok r → r = []) ∧
    (∀ (files : List Bm25File) (w : List ℚ) (k : Nat) (factor : Nat → Nat → ℚ)
        (r : List (Nat × Nat)), searchBm25 files [] w k factor = .ok r → r = []) ∧
    searchSubstringAsync 4 [sfileA] [] 0 = .ok {(0, 10), (0, 20), (0, 30), (0, 40)} := by
  refine ⟨?_, ?_, by decide⟩
  · intro files q w factor r h
    exact searchBm25_k0 files q w factor r h
  · intro files w k factor r h
    exact searchBm25_empty_query files w k factor r h

theorem no_input_validation_witness :
    ([] : List (Nat × Nat)) = [] ∧ ([] : List (Nat × Nat)) = [] :=
  ⟨no_input_validation_amended.1 [wfile] [1] [1] (fun _ _ => 1) [] (by rfl),
   no_input_validation_amended.2.1 [wfile] [1] 7 (fun _ _ => 1) [] (by rfl)⟩

/-! ## C9 — BM25 panic preconditions -/

theorem accumCounts_oob (counts : List Nat) :
    ∀ (q : List Nat) (tc : Nat → Nat), (∃ t ∈ q, counts.length ≤ t) →
      accumCounts counts q tc = .error (.panic "index out of bounds: token_counts") := by
  intro q
  induction q with
  | nil =>
    intro tc h
    obtain ⟨t, ht, _⟩ := h
    cases ht
  | cons t rest ih =>
    intro tc h
    unfold accumCounts
    cases hq : counts.get? t with
    | none => rfl
    | some c =>
      have htl : t < counts.length := by
        by_contra hge
        rw [List.get?_eq_none.mpr (by omega)] at hq
        cases hq
      apply ih
      obtain ⟨t0, ht0, hlen⟩ := h
      rcases List.mem_cons.mp ht0 with h' | h'
      · subst h'
        omega
      · exact ⟨t0, h', hlen⟩

theorem accumCounts_ok (counts : List Nat) :
    ∀ (q : List Nat) (tc : Nat → Nat), (∀ t ∈ q, t < counts.length) →
      ∃ tc', accumCounts counts q tc = .ok tc' := by
  intro q
  induction q with
  | nil => intro tc _; exact ⟨tc, rfl⟩
  | cons t rest ih =>
    intro tc h
    unfold accumCounts
    cases hq : counts.get? t with
    | none =>
      rw [List.get?_eq_none] at hq
      exact absurd (h t (List.mem_cons_self t rest)) (by omega)
    | some c => exact ih _ fun t' ht' => h t' (List.mem_cons_of_mem t ht')

theorem bsGo_all_gt (b : List Nat) (t : Nat)
    (hall : ∀ i, i < b.length → t < b.getD i 0) :
    ∀ fuel right, right ≤ b.length → bsGo b t fuel 0 right = .notFound 0 := by
  intro fuel
  induction fuel with
  | zero => intro right _; rfl
  | succ m ih =>
    intro right hr
    by_cases hc : 0 < right
    · have hgt : t < b.getD (0 + (right - 0) / 2) 0 := hall _ (by omega)
      simp only [bsGo, if_pos hc, if_neg (by omega : ¬ b.getD (0 + (right - 0) / 2) 0 < t),
        if_pos hgt]
      exact ih _ (by omega)
    · simp [bsGo, hc]

theorem locateChunk_underflow (b : List Nat) (t : Nat)
    (hs : ∀ i j, i ≤ j → j < b.length → b.getD i 0 ≤ b.getD j 0)
    (hlt : t < b.getD 0 0) :
    locateChunk b t = .error (.panic "attempt to subtract with overflow") := by
  have hall : ∀ i, i < b.length → t < b.getD i 0 := fun i hi =>
    lt_of_lt_of_le hlt (hs 0 i (by omega) hi)
  exact locateChunk_notFound_zero b t (bsGo_all_gt b t hall (b.length + 1) b.length (le_refl _))

theorem locateAll_underflow (b : List Nat)
    (hs : ∀ i j, i ≤ j → j < b.length → b.getD i 0 ≤ b.getD j 0) (hlen : 0 < b.length) :
    ∀ (q : List Nat) (fid : Nat) (acc : List ((Nat × Nat) × List (Nat × Nat))),
      (∃ t ∈ q, t < b.getD 0 0) →
      locateAll b fid q acc = .error (.panic "attempt to subtract with overflow") := by
  intro q
  induction q with
  | nil =>
    intro fid acc h
    obtain ⟨t, ht, _⟩ := h
    cases ht
  | cons t rest ih =>
    intro fid acc h
    unfold locateAll
    by_cases hc : t < b.getD 0 0
    · rw [locateChunk_underflow b t hs hc]
    · obtain ⟨j, hj⟩ := (locateChunk_spec b t hs hlen (by omega)).1
      rw [hj]
      apply ih
      obtain ⟨t0, ht0, hlt0⟩ := h
      rcases List.mem_cons.mp ht0 with h' | h'
      · subst h'
        omega
      · exact ⟨t0, h', hlt0⟩

theorem locateAll_ok (b : List Nat)
    (hs : ∀ i j, i ≤ j → j < b.length → b.getD i 0 ≤ b.getD j 0) (hlen : 0 < b.length) :
    ∀ (q : List Nat) (fid : Nat) (acc : List ((Nat × Nat) × List (Nat × Nat))),
      (∀ t ∈ q, b.getD 0 0 ≤ t) → ∃ acc', locateAll b fid q acc = .ok acc' := by
  intro q
  induction q with
  | nil => intro fid acc _; exact ⟨acc, rfl⟩
  | cons t rest ih =>
    intro fid acc h
    unfold locateAll
    obtain ⟨j, hj⟩ := (locateChunk_spec b t hs hlen (h t (List.mem_cons_self t rest))).1
    rw [hj]
    exact ih fid _ fun t' ht' => h t' (List.mem_cons_of_mem t ht')

theorem buildIdf_short (w : List ℚ) (factor : Nat → Nat → ℚ) (td : Nat) (tc : Nat → Nat) :
    ∀ (l : List (Nat × Nat)) (idf : Nat → ℚ), (∃ p ∈ l, w.length ≤ p.1) →
      buildIdf w factor td tc l idf = .error (.panic "index out of bounds: query_weights") := by
  intro l
  induction l with
  | nil =>
    intro idf h
    obtain ⟨p, hp, _⟩ := h
    cases hp
  | cons p rest ih =>
    intro idf h
    obtain ⟨i, t⟩ := p
    unfold buildIdf
    cases hw : w.get? i with
    | none => rfl
    | some wi =>
      have hil : i < w.length := by
        by_contra hge
        rw [List.get?_eq_none.mpr (by omega)] at hw
        cases hw
      apply ih
      obtain ⟨p0, hp0, hlen0⟩ := h
      rcases List.mem_cons.mp hp0 with h' | h'
      · subst h'
        exact absurd hlen0 (by simpa using by omega)
      · exact ⟨p0, h', hlen0⟩

theorem rrd_err (f : Bm25File) (a b : Nat) (e : LavaError)
    (h : rrd f a b = .error (.err e)) :
    (∃ kk, e = LavaError.Io kk) ∨ (∃ s, e = LavaError.Parse s) := by
  unfold rrd at h
  split at h
  · cases h
    exact .inl ⟨_, rfl⟩
  · split at h
    · next de heq =>
      cases h
      cases de with
      | io kk => exact .inl ⟨kk, rfl⟩
      | parse s => exact .inr ⟨s, rfl⟩
    · cases h

theorem accumCounts_no_err (counts : List Nat) :
    ∀ (q : List Nat) (tc : Nat → Nat) (e : LavaError),
      accumCounts counts q tc ≠ .error (.err e) := by
  intro q
  induction q with
  | nil =>
    intro tc e h
    cases h
  | cons t rest ih =>
    intro tc e h
    unfold accumCounts at h
    split at h
    · injection h with h2
      cases h2
    · exact ih _ e h

theorem locateChunk_no_err (b : List Nat) (t : Nat) (e : LavaError) :
    locateChunk b t ≠ .error (.err e) := by
  intro h
  unfold locateChunk at h
  split at h
  · cases h
  · split at h
    · injection h with h2
      cases h2
    · split at h
      · injection h with h2
        cases h2
      · cases h

theorem locateAll_no_err (b : List Nat) (fid : Nat) :
    ∀ (q : List Nat) (acc : List ((Nat × Nat) × List (Nat × Nat))) (e : LavaError),
      locateAll b fid q acc ≠ .error (.err e) := by
  intro q
  induction q with
  | nil =>
    intro acc e h
    cases h
  | cons t rest ih =>
    intro acc e h
    unfold locateAll at h
    split at h
    · next e' heq =>
      cases h
      exact locateChunk_no_err b t e heq
    · exact ih _ e h

theorem buildIdf_no_err (w : List ℚ) (factor : Nat → Nat → ℚ) (td : Nat) (tc : Nat → Nat) :
    ∀ (l : List (Nat × Nat)) (idf : Nat → ℚ) (e : LavaError),
      buildIdf w factor td tc l idf ≠ .error (.err e) := by
  intro l
  induction l with
  | nil =>
    intro idf e h
    cases h
  | cons p rest ih =>
    intro idf e h
    obtain ⟨i, t⟩ := p
    unfold buildIdf at h
    split at h
    · injection h with h2
      cases h2
    · exact ih _ e h

theorem scoreResults_no_err (fid : Nat) (idf : Nat → ℚ) :
    ∀ (rs : List (List Nat)) (tokens : List Nat) (ps : List ((Nat × Nat) × ℚ))
      (e : LavaError), scoreResults fid idf rs tokens ps ≠ .error (.err e) := by
  intro rs
  induction rs with
  | nil =>
    intro tokens ps e h
    cases h
  | cons r rs' ih =>
    intro tokens ps e h
    unfold scoreResults at h
    split at h
    · injection h with h2
      cases h2
    · split at h
      · injection h with h2
        cases h2
      · exact ih _ _ e h

theorem scoreChunk_err (files : List Bm25File) (apo : List (List Nat)) (idf : Nat → ℚ)
    (key : Nat × Nat) (tokOffs : List (Nat × Nat)) (ps : List ((Nat × Nat) × ℚ))
    (e : LavaError) (h : scoreChunk files apo idf key tokOffs ps = .error (.err e)) :
    e = .Io .invalidData := by
  unfold scoreChunk at h
  split at h
  · split at h
    · split at h
      · cases h
        rfl
      · split at h
        · injection h with h2
          cases h2
        · exact absurd h (scoreResults_no_err _ _ _ _ _ e)
    · injection h with h2
      cases h2
  · injection h with h2
    cases h2

theorem scoreChunks_err (files : List Bm25File) (apo : List (List Nat)) (idf : Nat → ℚ) :
    ∀ (entries : List ((Nat × Nat) × List (Nat × Nat))) (ps : List ((Nat × Nat) × ℚ))
      (e : LavaError), scoreChunks files apo idf entries ps = .error (.err e) →
      e = .Io .invalidData := by
  intro entries
  induction entries with
  | nil =>
    intro ps e h
    cases h
  | cons p rest ih =>
    intro ps e h
    obtain ⟨key, tokOffs⟩ := p
    unfold scoreChunks at h
    cases h1 : scoreChunk files apo idf key tokOffs ps with
    | error e' =>
      rw [h1, bindErr] at h
      cases h
      exact scoreChunk_err files apo idf key tokOffs ps e h1
    | ok ps' =>
      rw [h1, bindOk] at h
      exact ih ps' e h

theorem bm25File_err (q : List Nat) (fid : Nat) (f : Bm25File) (st : Bm25State)
    (e : LavaError) (h : bm25File q fid f st = .error (.err e)) :
    (∃ kk, e = LavaError.Io kk) ∨ (∃ s, e = LavaError.Parse s) := by
  unfold bm25File at h
  cases h1 : rrd f f.termDictOffset f.plistOffsetsOffset with
  | error e' =>
    rw [h1, bindErr] at h
    cases h
    exact rrd_err f _ _ e h1
  | ok counts =>
    rw [h1, bindOk] at h
    cases h2 : accumCounts counts q st.totalCounts with
    | error e' =>
      rw [h2, bindErr] at h
      cases h
      exact absurd h2 (accumCounts_no_err counts q st.totalCounts e)
    | ok tc =>
      rw [h2, bindOk] at h
      cases h3 : rrd f f.plistOffsetsOffset (bm25PlistRangeTo f.fileSize f.plistOffsetsOffset) with
      | error e' =>
        rw [h3, bindErr] at h
        cases h
        exact rrd_err f _ _ e h3
      | ok offs =>
        rw [h3, bindOk] at h
        split at h
        · cases h
          exact .inr ⟨_, rfl⟩
        · cases h4 : locateAll (offs.drop (offs.length / 2)) fid q st.chunks with
          | error e' =>
            rw [h4, bindErr] at h
            cases h
            exact absurd h4 (locateAll_no_err _ fid q st.chunks e)
          | ok chunks =>
            rw [h4, bindOk] at h
            cases h

theorem bm25Load_err (q : List Nat) :
    ∀ (fl : List (Nat × Bm25File)) (st : Bm25State) (e : LavaError),
      bm25Load q fl st = .error (.err e) →
      (∃ kk, e = LavaError.Io kk) ∨ (∃ s, e = LavaError.Parse s) := by
  intro fl
  induction fl with
  | nil =>
    intro st e h
    cases h
  | cons p rest ih =>
    intro st e h
    obtain ⟨fid, f⟩ := p
    unfold bm25Load at h
    cases h1 : bm25File q fid f st with
    | error e' =>
      rw [h1, bindErr] at h
      cases h
      exact bm25File_err q fid f st e h1
    | ok st1 =>
      rw [h1, bindOk] at h
      exact ih st1 e h

/-- C9, first conjunct as a standalone composition: the whole BM25 search
returns an error *value* only of kind `Io` (transport, range guard) or
`Parse` (zstd/bincode, parity "data corruption") — never any other kind. -/
theorem searchBm25_err (files : List Bm25File) (q : List Nat) (w : List ℚ) (k : Nat)
    (factor : Nat → Nat → ℚ) (e : LavaError)
    (h : searchBm25 files q w k factor = .error (.err e)) :
    (∃ kk, e = LavaError.Io kk) ∨ (∃ s, e = LavaError.Parse s) := by
  unfold searchBm25 at h
  cases h1 : bm25Load q files.enum bm25InitState with
  | error e' =>
    rw [h1, bindErr] at h
    cases h
    exact bm25Load_err q files.enum bm25InitState e h1
  | ok st =>
    rw [h1, bindOk] at h
    cases h2 : buildIdf w factor st.totalDocs st.totalCounts q.enum (fun _ => 0) with
    | error e' =>
      rw [h2, bindErr] at h
      cases h
      exact absurd h2 (buildIdf_no_err w factor st.totalDocs st.totalCounts q.enum _ e)
    | ok idf =>
      rw [h2, bindOk] at h
      cases h3 : scoreChunks files st.allPlistOffsets idf st.chunks [] with
      | error e' =>
        rw [h3, bindErr] at h
        cases h
        exact .inl ⟨_, scoreChunks_err files st.allPlistOffsets idf st.chunks [] e h3⟩
      | ok ps =>
        rw [h3, bindOk] at h
        cases h

theorem searchBm25_token_oob (f : Bm25File) (q : List Nat) (w : List ℚ) (k : Nat)
    (factor : Nat → Nat → ℚ) (counts : List Nat)
    (h1 : rrd f f.termDictOffset f.plistOffsetsOffset = .ok counts)
    (h2 : ∃ t ∈ q, counts.length ≤ t) :
    searchBm25 [f] q w k factor = .error (.panic "index out of bounds: token_counts") := by
  unfold searchBm25
  rw [show ([f] : List Bm25File).enum = [(0, f)] from rfl]
  unfold bm25Load bm25File
  rw [h1, bindOk, accumCounts_oob counts q _ h2, bindErr, bindErr, bindErr]

theorem searchBm25_token_below_first (f : Bm25File) (q : List Nat) (w : List ℚ) (k : Nat)
    (factor : Nat → Nat → ℚ) (counts offs : List Nat)
    (h1 : rrd f f.termDictOffset f.plistOffsetsOffset = .ok counts)
    (hq : ∀ t ∈ q, t < counts.length)
    (h3 : rrd f f.plistOffsetsOffset (bm25PlistRangeTo f.fileSize f.plistOffsetsOffset) = .ok offs)
    (h4 : offs.length % 2 = 0)
    (hs : ∀ i j, i ≤ j → j < (offs.drop (offs.length / 2)).length →
        (offs.drop (offs.length / 2)).getD i 0 ≤ (offs.drop (offs.length / 2)).getD j 0)
    (hlen : 0 < (offs.drop (offs.length / 2)).length)
    (hb : ∃ t ∈ q, t < (offs.drop (offs.length / 2)).getD 0 0) :
    searchBm25 [f] q w k factor = .error (.panic "attempt to subtract with overflow") := by
  unfold searchBm25
  rw [show ([f] : List Bm25File).enum = [(0, f)] from rfl]
  unfold bm25Load bm25File
  obtain ⟨tc', hac⟩ := accumCounts_ok counts q bm25InitState.totalCounts hq
  rw [h1, bindOk, hac, bindOk, h3, bindOk, if_neg (by omega),
    locateAll_underflow _ hs hlen q 0 _ hb, bindErr, bindErr, bindErr]

theorem searchBm25_weights_short (f : Bm25File) (q : List Nat) (w : List ℚ) (k : Nat)
    (factor : Nat → Nat → ℚ) (counts offs : List Nat)
    (h1 : rrd f f.termDictOffset f.plistOffsetsOffset = .ok counts)
    (hq : ∀ t ∈ q, t < counts.length)
    (h3 : rrd f f.plistOffsetsOffset (bm25PlistRangeTo f.fileSize f.plistOffsetsOffset) = .ok offs)
    (h4 : offs.length % 2 = 0)
    (hs : ∀ i j, i ≤ j → j < (offs.drop (offs.length / 2)).length →
        (offs.drop (offs.length / 2)).getD i 0 ≤ (offs.drop (offs.length / 2)).getD j 0)
    (hlen : 0 < (offs.drop (offs.length / 2)).length)
    (hge : ∀ t ∈ q, (offs.drop (offs.length / 2)).getD 0 0 ≤ t)
    (hw : w.length < q.length) :
    searchBm25 [f] q w k factor = .error (.panic "index out of bounds: query_weights") := by
  unfold searchBm25
  rw [show ([f] : List Bm25File).enum = [(0, f)] from rfl]
  unfold bm25Load bm25File
  obtain ⟨tc', hac⟩ := accumCounts_ok counts q bm25InitState.totalCounts hq
  obtain ⟨acc', hla⟩ := locateAll_ok _ hs hlen q 0 bm25InitState.chunks hge
  have hex : ∃ p ∈ q.enum, w.length ≤ p.1 := by
    cases hx : q.get? w.length with
    | none =>
      rw [List.get?_eq_none] at hx
      omega
    | some x =>
      refine ⟨(w.length, x), ?_, le_refl _⟩
      rw [List.mk_mem_enum_iff_get?]
      exact hx
  rw [h1, bindOk, hac, bindOk, h3, bindOk, if_neg (by omega), hla, bindOk, bindOk]
  rw [show bm25Load q []
      { totalCounts := tc', totalDocs := bm25InitState.totalDocs + f.numDocuments,
        allPlistOffsets := bm25InitState.allPlistOffsets ++ [offs], chunks := acc' } = .ok
      { totalCounts := tc', totalDocs := bm25InitState.totalDocs + f.numDocuments,
        allPlistOffsets := bm25InitState.allPlistOffsets ++ [offs], chunks := acc' } from rfl]
  rw [bindOk, buildIdf_short w factor _ _ q.enum _ hex, bindErr]

/-- C9: `search_bm25` returns an error value only of kind I/O or Parse
(transport / range guard, zstd-bincode / parity), and panics — instead of
returning an error — when (a) a query token id is at least the term
dictionary's length (`token_counts[t]` out of bounds), (b) a query token is
below the first term-dict boundary (the `Err(0)` arm computes `0 - 1` on a
`usize`), or (c) `query_weights` is shorter than `query_tokens`
(`query_weights[i]` out of bounds); absence of panic therefore needs these
preconditions as hypotheses. -/
theorem bm25_panic_preconditions :
    (∀ (files : List Bm25File) (q : List Nat) (w : List ℚ) (k : Nat)
        (factor : Nat → Nat → ℚ) (e : LavaError),
      searchBm25 files q w k factor = .error (.err e) →
      (∃ kk, e = LavaError.Io kk) ∨ (∃ s, e = LavaError.Parse s)) ∧
    (∀ (f : Bm25File) (q : List Nat) (w : List ℚ) (k : Nat) (factor : Nat → Nat → ℚ)
        (counts : List Nat),
      rrd f f.termDictOffset f.plistOffsetsOffset = .ok counts →
      (∃ t ∈ q, counts.length ≤ t) →
      searchBm25 [f] q w k factor = .error (.panic "index out of bounds: token_counts")) ∧
    (∀ (f : Bm25File) (q : List Nat) (w : List ℚ) (k : Nat) (factor : Nat → Nat → ℚ)
        (counts offs : List Nat),
      rrd f f.termDictOffset f.plistOffsetsOffset = .ok counts →
      (∀ t ∈ q, t < counts.length) →
      rrd f f.plistOffsetsOffset (bm25PlistRangeTo f.fileSize f.plistOffsetsOffset) = .ok offs →
      offs.length % 2 = 0 →
      (∀ i j, i ≤ j → j < (offs.drop (offs.length / 2)).length →
        (offs.drop (offs.length / 2)).getD i 0 ≤ (offs.drop (offs.length / 2)).getD j 0) →
      0 < (offs.drop (offs.length / 2)).length →
      (∃ t ∈ q, t < (offs.drop (offs.length / 2)).getD 0 0) →
      searchBm25 [f] q w k factor = .error (.panic "attempt to subtract with overflow")) ∧
    (∀ (f : Bm25File) (q : List Nat) (w : List ℚ) (k : Nat) (factor : Nat → Nat → ℚ)
        (counts offs : List Nat),
      rrd f f.termDictOffset f.plistOffsetsOffset = .ok counts →
      (∀ t ∈ q, t < counts.length) →
      rrd f f.plistOffsetsOffset (bm25PlistRangeTo f.fileSize f.plistOffsetsOffset) = .ok offs →
      offs.length % 2 = 0 →
      (∀ i j, i ≤ j → j < (offs.drop (offs.length / 2)).length →
        (offs.drop (offs.length / 2)).getD i 0 ≤ (offs.drop (offs.length / 2)).getD j 0) →
      0 < (offs.drop (offs.length / 2)).length →
      (∀ t ∈ q, (offs.drop (offs.length / 2)).getD 0 0 ≤ t) →
      w.length < q.length →
      searchBm25 [f] q w k factor = .error (.panic "index out of bounds: query_weights")) := by
  refine ⟨?_, ?_, ?_, ?_⟩
  · intro files q w k factor e h
    exact searchBm25_err files q w k factor e h
  · intro f q w k factor counts h1 h2
    exact searchBm25_token_oob f q w k factor counts h1 h2
  · intro f q w k factor counts offs h1 hq h3 h4 hs hlen hb
    exact searchBm25_token_below_first f q w k factor counts offs h1 hq h3 h4 hs hlen hb
  · intro f q w k factor counts offs h1 hq h3 h4 hs hlen hge hw
    exact searchBm25_weights_short f q w k factor counts offs h1 hq h3 h4 hs hlen hge hw

theorem bm25_panic_preconditions_witness :
    LavaError.Io .invalidData ≠ LavaError.Inconsistent "tokenizer" ∧
    searchBm25 [wfile] [100] [] 0 (fun _ _ => 1) =
      .error (.panic "index out of bounds: token_counts") ∧
    searchBm25 [wfile] [0] [1] 0 (fun _ _ => 1) =
      .error (.panic "attempt to subtract with overflow") ∧
    searchBm25 [wfile] [1] [] 0 (fun _ _ => 1) =
      .error (.panic "index out of bounds: query_weights") := by
  refine ⟨?_, ?_, ?_, ?_⟩
  · rcases bm25_panic_preconditions.1 [wfileBad] [] [] 0 (fun _ _ => 1) (.Io .invalidData)
      (by rfl) with ⟨kk, hk⟩ | ⟨s, hk⟩
    · intro hc
      cases hc
    · cases hk
  · exact bm25_panic_preconditions.2.1 wfile [100] [] 0 (fun _ _ => 1) _ rfl (by decide)
  · exact bm25_panic_preconditions.2.2.1 wfile [0] [1] 0 (fun _ _ => 1)
      [4, 4, 4, 4, 4, 4, 4, 4, 4, 4] [300, 400, 1, 3] rfl (by decide) rfl (by decide)
      (by
        intro i j hij hj
        simp only [List.length_drop, List.length_cons, List.length_nil] at hj
        interval_cases j <;> interval_cases i <;> decide)
      (by decide) (by decide)
  · exact bm25_panic_preconditions.2.2.2 wfile [1] [] 0 (fun _ _ => 1)
      [4, 4, 4, 4, 4, 4, 4, 4, 4, 4] [300, 400, 1, 3] rfl (by decide) rfl (by decide)
      (by
        intro i j hij hj
        simp only [List.length_drop, List.length_cons, List.length_nil] at hj
        interval_cases j <;> interval_cases i <;> decide)
      (by decide) (by decide) (by decide)

/-! ## C3 — tokenizer mismatch across files -/

theorem ogSome {α : Type} (a : α) (msg : String) : og (some a) msg = .ok a := rfl

theorem ogNone {α : Type} (msg : String) :
    og (none : Option α) msg = .error (.panic msg) := rfl

theorem tokLoop_mismatch (v : List Nat) :
    ∀ (files : List SubFile), (∀ f ∈ files, f.tokBytes ≠ []) →
      (∃ f ∈ files, f.tokBytes ≠ v) →
      tokLoop files (some v) = .error (.panic tokMismatchMsg) := by
  intro files
  induction files with
  | nil =>
    intro _ h
    obtain ⟨f, hf, _⟩ := h
    cases hf
  | cons f rest ih =>
    intro hne h
    unfold tokLoop
    rw [if_neg (by
      have := hne f (List.mem_cons_self f rest)
      simpa [List.length_eq_zero] using this)]
    show (if f.tokBytes = v then tokLoop rest (some v)
        else Except.error (Fail.panic tokMismatchMsg)) =
      Except.error (Fail.panic tokMismatchMsg)
    by_cases hv : f.tokBytes = v
    · rw [if_pos hv]
      apply ih (fun g hg => hne g (List.mem_cons_of_mem f hg))
      obtain ⟨g, hg, hgv⟩ := h
      rcases List.mem_cons.mp hg with h' | h'
      · subst h'
        exact absurd hv hgv
      · exact ⟨g, h', hgv⟩
    · rw [if_neg hv]

theorem getTokenizerBytes_mismatch (files : List SubFile) (i : Nat) (fi f0 : SubFile)
    (hne : ∀ f ∈ files, f.tokBytes ≠ [])
    (hi : files.get? i = some fi) (h0 : files.get? 0 = some f0)
    (hmm : fi.tokBytes ≠ f0.tokBytes) :
    getTokenizerBytes files = .error (.panic tokMismatchMsg) := by
  cases files with
  | nil => cases h0
  | cons f rest =>
    have hf0 : f0 = f := by
      injection h0 with h0'
      exact h0'.symm
    rw [hf0] at hmm
    unfold getTokenizerBytes tokLoop
    rw [if_neg (by
      have := hne f (List.mem_cons_self f rest)
      simpa [List.length_eq_zero] using this)]
    apply tokLoop_mismatch _ _ (fun g hg => hne g (List.mem_cons_of_mem f hg))
    cases i with
    | zero =>
      injection hi with hi'
      exact absurd (by rw [hi']) hmm
    | succ i' =>
      exact ⟨fi, List.get?_mem hi, hmm⟩

/-- C3 (counterexample): two files whose embedded compressed tokenizer bytes
differ make `search_lava_substring` abort through the `assert!` in
`get_tokenizer_async` — a panic, not a returned error value, so in
particular not the `Inconsistent` error value the claim describes. -/
theorem tokenizer_mismatch_cex :
    searchLavaSubstring 2 [sfileC, sfileD] [0] 1 = .error (.panic tokMismatchMsg) ∧
    resultIsErrorValue (searchLavaSubstring 2 [sfileC, sfileD] [0] 1) = false := by
  constructor
  · rfl
  · rfl

/-- C3 (amended): if any queried file's embedded compressed tokenizer bytes
differ from the first file's, the substring search fails fast — before any
per-file search work, so with no partial results — but by *panicking* with
the "detected different tokenizers" assertion message, not by returning an
`Inconsistent` error value. -/
theorem tokenizer_mismatch_panics (F : Nat) (files : List SubFile)
    (queryTokens : List Nat) (k i : Nat) (fi f0 : SubFile)
    (hne : ∀ f ∈ files, f.tokBytes ≠ [])
    (hi : files.get? i = some fi) (h0 : files.get? 0 = some f0)
    (hmm : fi.tokBytes ≠ f0.tokBytes) :
    searchLavaSubstring F files queryTokens k = .error (.panic tokMismatchMsg) := by
  unfold searchLavaSubstring
  rw [getTokenizerBytes_mismatch files i fi f0 hne hi h0 hmm, bindErr]

theorem tokenizer_mismatch_panics_witness :
    searchLavaSubstring 2 [sfileC, sfileD] [] 3 = .error (.panic tokMismatchMsg) :=
  tokenizer_mismatch_panics 2 [sfileC, sfileD] [] 3 1 sfileD sfileC
    (by decide) (by decide) (by decide) (by decide)

/-! ## C10 — posting-list offsets indexing when `end` is a chunk multiple -/

/-- C10: when the final backward-search interval ends exactly at `n` with
`FM_CHUNK_TOKS` dividing `n` — as for an empty token query, whose interval
stays `[0, n)` — the uid-mapping step computes
`total_chunks = end/F − start/F + 1` and indexes
`posting_list_offsets[end/F + 1]`; the table's invariant length is
`ceil(n/F) + 1 = n/F + 1`, so that index is one past the last element and the
search panics instead of returning results. -/
theorem substring_chunk_boundary_panic (F : Nat) (f : SubFile) (k : Nat)
    (hF : 0 < F) (hd : F ∣ f.n) (hn : 0 < f.n)
    (hlen : f.plistOffsets.length = f.n / F + 1) :
    searchSubstringAsync F [f] [] k =
      .error (.panic "index out of bounds: posting_list_offsets") := by
  have hz : (0 : Nat) / F = 0 := Nat.zero_div F
  have hq : 0 < f.n / F := Nat.div_pos (Nat.le_of_dvd hn hd) hF
  unfold searchSubstringAsync
  rw [show ([f] : List SubFile).enum = [(0, f)] from rfl]
  unfold goFiles
  rw [show searchInterval F f [] = Except.ok (0, f.n) from rfl, bindOk, if_neg (by omega)]
  unfold fileSlices
  cases hp0 : f.plistOffsets.get? (0 / F) with
  | none =>
    rw [List.get?_eq_none] at hp0
    omega
  | some p0 =>
    rw [ogSome, bindOk]
    dsimp only
    rw [List.get?_eq_none.mpr (by omega), ogNone, bindErr, bindErr]

theorem substring_chunk_boundary_panic_witness :
    searchSubstringAsync 2 [sfileC] [] 0 =
      .error (.panic "index out of bounds: posting_list_offsets") :=
  substring_chunk_boundary_panic 2 sfileC 0 (by decide) (by decide) (by decide) (by decide)

/-! ## C1 — substring result-set cardinality -/

theorem unionFrom_cons (fid : Nat) (u : List Nat) (rest : List (List Nat))
    (A : Finset (Nat × Nat)) :
    unionFrom fid (u :: rest) A = unionFrom fid rest (A ∪ pairsOf fid u) := rfl

theorem subset_unionFrom (fid : Nat) :
    ∀ (l : List (List Nat)) (A : Finset (Nat × Nat)), A ⊆ unionFrom fid l A := by
  intro l
  induction l with
  | nil => intro A; exact Finset.Subset.refl A
  | cons u rest ih =>
    intro A
    rw [unionFrom_cons]
    exact Finset.Subset.trans Finset.subset_union_left (ih (A ∪ pairsOf fid u))

theorem unionFrom_eq_union (fid : Nat) :
    ∀ (l : List (List Nat)) (A : Finset (Nat × Nat)),
      unionFrom fid l A = A ∪ unionFrom fid l ∅ := by
  intro l
  induction l with
  | nil =>
    intro A
    show A = A ∪ ∅
    rw [Finset.union_empty]
  | cons u rest ih =>
    intro A
    rw [unionFrom_cons, unionFrom_cons, ih (A ∪ pairsOf fid u), ih (∅ ∪ pairsOf fid u)]
    rw [Finset.empty_union, Finset.union_assoc]

theorem mapLoop_subset (k fid : Nat) :
    ∀ (l : List (List Nat)) (A B : Finset (Nat × Nat)), A ⊆ B →
      mapLoop k fid l A ⊆ unionFrom fid l B := by
  intro l
  induction l with
  | nil => intro A B h; exact h
  | cons u rest ih =>
    intro A B h
    show (if k < (A ∪ pairsOf fid u).card then A ∪ pairsOf fid u
        else mapLoop k fid rest (A ∪ pairsOf fid u)) ⊆ _
    rw [unionFrom_cons]
    by_cases hc : k < (A ∪ pairsOf fid u).card
    · rw [if_pos hc]
      exact Finset.Subset.trans (Finset.union_subset_union_left h)
        (subset_unionFrom fid rest (B ∪ pairsOf fid u))
    · rw [if_neg hc]
      exact ih _ _ (Finset.union_subset_union_left h)

theorem subset_mapLoop (k fid : Nat) :
    ∀ (l : List (List Nat)) (A : Finset (Nat × Nat)), A ⊆ mapLoop k fid l A := by
  intro l
  induction l with
  | nil => intro A; exact Finset.Subset.refl A
  | cons u rest ih =>
    intro A
    show A ⊆ (if k < (A ∪ pairsOf fid u).card then A ∪ pairsOf fid u
        else mapLoop k fid rest (A ∪ pairsOf fid u))
    by_cases hc : k < (A ∪ pairsOf fid u).card
    · rw [if_pos hc]
      exact Finset.subset_union_left
    · rw [if_neg hc]
      exact Finset.Subset.trans Finset.subset_union_left (ih (A ∪ pairsOf fid u))

theorem mapLoop_of_card_le (k fid : Nat) :
    ∀ (l : List (List Nat)) (A : Finset (Nat × Nat)),
      (unionFrom fid l A).card ≤ k → mapLoop k fid l A = unionFrom fid l A := by
  intro l
  induction l with
  | nil => intro A _; rfl
  | cons u rest ih =>
    intro A h
    rw [unionFrom_cons] at h
    show (if k < (A ∪ pairsOf fid u).card then A ∪ pairsOf fid u
        else mapLoop k fid rest (A ∪ pairsOf fid u)) = _
    rw [unionFrom_cons]
    have hsub : (A ∪ pairsOf fid u).card ≤ k :=
      le_trans (Finset.card_le_card (subset_unionFrom fid rest (A ∪ pairsOf fid u))) h
    rw [if_neg (by omega)]
    exact ih _ h

theorem mapLoop_card_le (k fid : Nat) :
    ∀ (l : List (List Nat)) (A : Finset (Nat × Nat)),
      (mapLoop k fid l A).card ≤ k → mapLoop k fid l A = unionFrom fid l A := by
  intro l
  induction l with
  | nil => intro A _; rfl
  | cons u rest ih =>
    intro A h
    rw [unionFrom_cons]
    by_cases hc : k < (A ∪ pairsOf fid u).card
    · exfalso
      have hm : mapLoop k fid (u :: rest) A = A ∪ pairsOf fid u := by
        show (if k < (A ∪ pairsOf fid u).card then _ else _) = _
        rw [if_pos hc]
      rw [hm] at h
      omega
    · have hm : mapLoop k fid (u :: rest) A = mapLoop k fid rest (A ∪ pairsOf fid u) := by
        show (if k < (A ∪ pairsOf fid u).card then _ else _) = _
        rw [if_neg hc]
      rw [hm] at h ⊢
      exact ih _ h

theorem mapLoop_card_gt (k fid : Nat) :
    ∀ (l : List (List Nat)) (A : Finset (Nat × Nat)),
      k < (unionFrom fid l A).card → k < (mapLoop k fid l A).card := by
  intro l
  induction l with
  | nil => intro A h; exact h
  | cons u rest ih =>
    intro A h
    rw [unionFrom_cons] at h
    show k < (if k < (A ∪ pairsOf fid u).card then A ∪ pairsOf fid u
        else mapLoop k fid rest (A ∪ pairsOf fid u)).card
    by_cases hc : k < (A ∪ pairsOf fid u).card
    · rw [if_pos hc]
      exact hc
    · rw [if_neg hc]
      exact ih _ h

theorem answerGo_mono (F : Nat) (query : List Nat) :
    ∀ (fl : List (Nat × SubFile)) (A ans : Finset (Nat × Nat)),
      answerGo F query fl A = .ok ans → A ⊆ ans := by
  intro fl
  induction fl with
  | nil =>
    intro A ans h
    cases h
    exact Finset.Subset.refl _
  | cons p rest ih =>
    intro A ans h
    obtain ⟨fid, f⟩ := p
    unfold answerGo at h
    cases hfp : filePairs F query fid f with
    | error e =>
      rw [hfp, bindErr] at h
      cases h
    | ok S =>
      rw [hfp, bindOk] at h
      exact Finset.Subset.trans Finset.subset_union_left (ih _ _ h)

theorem goFiles_subset (F k : Nat) (query : List Nat) :
    ∀ (fl : List (Nat × SubFile)) (A B res ans : Finset (Nat × Nat)),
      B ⊆ A →
      goFiles F k query fl B = .ok res →
      answerGo F query fl A = .ok ans →
      res ⊆ ans := by
  intro fl
  induction fl with
  | nil =>
    intro A B res ans hBA hr ha
    cases hr
    cases ha
    exact hBA
  | cons p rest ih =>
    intro A B res ans hBA hr ha
    obtain ⟨fid, f⟩ := p
    unfold goFiles at hr
    unfold answerGo at ha
    unfold filePairs at ha
    cases hse : searchInterval F f query with
    | error e =>
      rw [hse, bindErr] at hr
      cases hr
    | ok se =>
      rw [hse] at hr ha
      simp only [bindOk] at hr ha
      by_cases hc : se.1 ≥ se.2
      · rw [if_pos hc] at hr ha
        simp only [bindOk] at ha
        rw [Finset.union_empty] at ha
        exact ih A B res ans hBA hr ha
      · rw [if_neg hc] at hr ha
        cases hsl : fileSlices F f se.1 se.2 with
        | error e =>
          rw [hsl, bindErr] at hr
          cases hr
        | ok slices =>
          rw [hsl] at hr ha
          simp only [bindOk] at hr ha
          have hacc : mapLoop k fid slices B ⊆ A ∪ unionFrom fid slices ∅ := by
            have h1 : mapLoop k fid slices B ⊆ unionFrom fid slices A :=
              mapLoop_subset k fid slices B A hBA
            rw [unionFrom_eq_union fid slices A] at h1
            exact h1
          by_cases hbk : k < (mapLoop k fid slices B).card
          · rw [if_pos hbk] at hr
            cases hr
            exact Finset.Subset.trans hacc (answerGo_mono F query rest _ ans ha)
          · rw [if_neg hbk] at hr
            exact ih _ _ res ans hacc hr ha

theorem goFiles_of_card_le (F k : Nat) (query : List Nat) :
    ∀ (fl : List (Nat × SubFile)) (A ans : Finset (Nat × Nat)),
      answerGo F query fl A = .ok ans → ans.card ≤ k →
      goFiles F k query fl A = .ok ans := by
  intro fl
  induction fl with
  | nil =>
    intro A ans ha _
    cases ha
    rfl
  | cons p rest ih =>
    intro A ans ha hk
    obtain ⟨fid, f⟩ := p
    unfold answerGo at ha
    unfold filePairs at ha
    unfold goFiles
    cases hse : searchInterval F f query with
    | error e =>
      simp only [hse, bindErr] at ha
      cases ha
    | ok se =>
      simp only [hse, bindOk] at ha ⊢
      by_cases hc : se.1 ≥ se.2
      · simp only [if_pos hc, bindOk, Finset.union_empty] at ha ⊢
        exact ih A ans ha hk
      · simp only [if_neg hc] at ha ⊢
        cases hsl : fileSlices F f se.1 se.2 with
        | error e =>
          simp only [hsl, bindErr] at ha
          cases ha
        | ok slices =>
          simp only [hsl, bindOk] at ha ⊢
          have hmono : A ∪ unionFrom fid slices ∅ ⊆ ans :=
            answerGo_mono F query rest _ ans ha
          have hcard : (unionFrom fid slices A).card ≤ k := by
            rw [unionFrom_eq_union fid slices A]
            exact le_trans (Finset.card_le_card hmono) hk
          have hfull : mapLoop k fid slices A = unionFrom fid slices A :=
            mapLoop_of_card_le k fid slices A hcard
          rw [hfull, if_neg (by omega), unionFrom_eq_union fid slices A]
          exact ih _ ans ha hk

theorem goFiles_card_gt (F k : Nat) (query : List Nat) :
    ∀ (fl : List (Nat × SubFile)) (A res ans : Finset (Nat × Nat)),
      answerGo F query fl A = .ok ans →
      goFiles F k query fl A = .ok res →
      k < ans.card → k < res.card := by
  intro fl
  induction fl with
  | nil =>
    intro A res ans ha hr hk
    cases ha
    cases hr
    exact hk
  | cons p rest ih =>
    intro A res ans ha hr hk
    obtain ⟨fid, f⟩ := p
    unfold answerGo at ha
    unfold filePairs at ha
    unfold goFiles at hr
    cases hse : searchInterval F f query with
    | error e =>
      simp only [hse, bindErr] at hr
      cases hr
    | ok se =>
      simp only [hse, bindOk] at ha hr
      by_cases hc : se.1 ≥ se.2
      · simp only [if_pos hc, bindOk, Finset.union_empty] at ha hr
        exact ih A res ans ha hr hk
      · simp only [if_neg hc] at ha hr
        cases hsl : fileSlices F f se.1 se.2 with
        | error e =>
          simp only [hsl, bindErr] at hr
          cases hr
        | ok slices =>
          simp only [hsl, bindOk] at ha hr
          by_cases hbk : k < (mapLoop k fid slices A).card
          · rw [if_pos hbk] at hr
            cases hr
            exact hbk
          · rw [if_neg hbk] at hr
            have hfull : mapLoop k fid slices A = unionFrom fid slices A :=
              mapLoop_card_le k fid slices A (by omega)
            rw [hfull, unionFrom_eq_union fid slices A] at hr
            exact ih _ res ans ha hr hk

/-- C1 (counterexample): on a single well-formed index (six BWT positions,
`F = 4`) with a one-token query whose final interval is `[0, 2)` and `k = 0`,
the search returns a set of 2 pairs: the correct answer also has 2 pairs, so
the claimed cardinality is `min(2, k + 1) = 1`, yet the result has 2 — more
than `k + 1` — because the early-termination check runs only after inserting
a whole posting-list chunk slice. -/
theorem substring_topk_cex :
    searchSubstringAsync 4 [sfileA] [0] 0 = .ok {(0, 10), (0, 20)} ∧
    substringAnswer 4 [sfileA] [0] = .ok {(0, 10), (0, 20)} ∧
    ({(0, 10), (0, 20)} : Finset (Nat × Nat)).card = 2 ∧
    min (({(0, 10), (0, 20)} : Finset (Nat × Nat)).card) (0 + 1) = 1 ∧
    ¬ (({(0, 10), (0, 20)} : Finset (Nat × Nat)).card ≤ 0 + 1) := by
  refine ⟨by decide, by decide, by decide, by decide, by decide⟩

/-- C1 (amended): whenever the substring search and the untruncated answer
both come back (`Ok`), the returned set is a subset of the answer — the union
over the files of the `(file_id, uid)` pairs of their final backward-search
intervals; when `|answer| ≤ k` the result is exactly the answer (so its
cardinality is `min(|answer|, k + 1)` in that regime), and when
`|answer| > k` the result has more than `k` pairs — but its cardinality is
not bounded by `k + 1`, because the `|set| > k` early-termination check runs
only after inserting an entire posting-list chunk slice (and after finishing
each file). -/
theorem substring_topk_amended (F k : Nat) (files : List SubFile) (query : List Nat)
    (res ans : Finset (Nat × Nat))
    (hr : searchSubstringAsync F files query k = .ok res)
    (ha : substringAnswer F files query = .ok ans) :
    res ⊆ ans ∧ (ans.card ≤ k → res = ans) ∧ (k < ans.card → k < res.card) := by
  refine ⟨goFiles_subset F k query files.enum ∅ ∅ res ans (Finset.Subset.refl ∅) hr ha, ?_, ?_⟩
  · intro hk
    have h2 := goFiles_of_card_le F k query files.enum ∅ ans ha hk
    rw [searchSubstringAsync] at hr
    rw [hr] at h2
    injection h2
  · intro hk
    exact goFiles_card_gt F k query files.enum ∅ res ans ha hr hk

theorem substring_topk_amended_witness :
    ({(0, 10), (0, 20)} : Finset (Nat × Nat)) ⊆ {(0, 10), (0, 20)} ∧
    ({(0, 10), (0, 20)} : Finset (Nat × Nat)) = {(0, 10), (0, 20)} :=
  have h := substring_topk_amended 4 5 [sfileA] [0] {(0, 10), (0, 20)} {(0, 10), (0, 20)}
    (by decide) (by decide)
  ⟨h.1, h.2.1 (by decide)⟩

/-! ### The slices of `fileSlices` cover exactly the interval `[s, e)` of the
uid list, so `substringAnswer` is literally the uids of the final
backward-search intervals. -/

theorem chunkUids_ok (F : Nat) (f : SubFile) (c : Nat) (ch : List Nat)
    (h : chunkUids F f c = .ok ch) : ch = (f.plist.drop (c * F)).take F := by
  unfold chunkUids chunksOf at h
  cases hg : ((List.range ((f.plist.length + F - 1) / F)).map
      (fun i => (f.plist.drop (i * F)).take F)).get? c with
  | none =>
    rw [hg, ogNone] at h
    cases h
  | some v =>
    rw [hg, ogSome] at h
    cases h
    rw [List.get?_map] at hg
    cases hr : (List.range ((f.plist.length + F - 1) / F)).get? c with
    | none =>
      rw [hr] at hg
      cases hg
    | some j =>
      rw [hr] at hg
      have hj : j = c := by
        have hc : c < (f.plist.length + F - 1) / F := by
          by_contra hge
          rw [List.get?_eq_none.mpr (by simpa using by omega)] at hr
          cases hr
        rw [List.get?_range hc] at hr
        injection hr with hr'
        exact hr'.symm
      subst hj
      injection hg with hg'
      exact hg'.symm

theorem fileSlicesGo_join (F : Nat) (f : SubFile) (s e : Nat) (hF : 0 < F)
    (hle : s / F ≤ e / F) :
    ∀ (r i : Nat) (l : List (List Nat)), 1 ≤ i → i + r = e / F - s / F + 1 →
      fileSlicesGo F f s e (e / F - s / F + 1) i r = .ok l →
      l.join = (f.plist.drop ((s / F + i) * F)).take (e - (s / F + i) * F) := by
  intro r
  induction r with
  | zero =>
    intro i l h1 htot h
    rw [show fileSlicesGo F f s e (e / F - s / F + 1) i 0 = Except.ok [] from rfl] at h
    cases h
    have hi : s / F + i = e / F + 1 := by omega
    rw [hi]
    have hmul : (e / F + 1) * F = F * (e / F) + F := by ring
    have hdm : F * (e / F) + e % F = e := Nat.div_add_mod e F
    have hlt : e % F < F := Nat.mod_lt e hF
    have hz : e - (e / F + 1) * F = 0 := by rw [hmul]; omega
    rw [hz]
    simp
  | succ m ih =>
    intro i l h1 htot h
    rw [show fileSlicesGo F f s e (e / F - s / F + 1) i (m + 1) = (do
        let u ← sliceAt F f s e (e / F - s / F + 1) i
        let rest ← fileSlicesGo F f s e (e / F - s / F + 1) (i + 1) m
        Except.ok (u :: rest)) from rfl] at h
    cases hu : sliceAt F f s e (e / F - s / F + 1) i with
    | error err =>
      simp only [hu, bindErr] at h
      cases h
    | ok u =>
      simp only [hu, bindOk] at h
      cases hrest : fileSlicesGo F f s e (e / F - s / F + 1) (i + 1) m with
      | error err =>
        simp only [hrest, bindErr] at h
        cases h
      | ok rest =>
        simp only [hrest, bindOk] at h
        cases h
        unfold sliceAt at hu
        cases ho1 : f.plistOffsets.get? (s / F + i) with
        | none =>
          simp only [ho1, ogNone, bindErr] at hu
          cases hu
        | some o1 =>
        cases ho2 : f.plistOffsets.get? (s / F + i + 1) with
        | none =>
          simp only [ho1, ho2, ogSome, ogNone, bindOk, bindErr] at hu
          cases hu
        | some o2 =>
        cases hch : chunkUids F f (s / F + i) with
        | error err =>
          simp only [ho1, ho2, ogSome, bindOk, hch, bindErr] at hu
          cases hu
        | ok ch =>
        simp only [ho1, ho2, ogSome, bindOk, hch] at hu
        have hcheq : ch = (f.plist.drop ((s / F + i) * F)).take F := chunkUids_ok F f _ ch hch
        rw [if_neg (by omega : ¬ i = 0)] at hu
        have hdm : F * (e / F) + e % F = e := Nat.div_add_mod e F
        have hlt : e % F < F := Nat.mod_lt e hF
        by_cases hil : i = e / F - s / F + 1 - 1
        · have hm0 : m = 0 := by omega
          subst hm0
          rw [show fileSlicesGo F f s e (e / F - s / F + 1) (i + 1) 0 = Except.ok []
            from rfl] at hrest
          cases hrest
          rw [if_pos hil] at hu
          cases hu
          have hx : s / F + i = e / F := by omega
          rw [hcheq, hx]
          simp only [List.join_cons, List.join_nil, List.append_nil]
          rw [List.take_take]
          have hmin : min (e % F) F = e % F := Nat.min_eq_left (by omega)
          rw [hmin]
          have hsub : e - e / F * F = e % F := by
            have : e / F * F = F * (e / F) := by ring
            omega
          rw [hsub]
        · rw [if_neg hil] at hu
          injection hu with hu'
          subst hu'
          have hih := ih (i + 1) rest (by omega) (by omega) hrest
          have hjoin : (ch :: rest).join = ch ++ rest.join := rfl
          rw [hjoin, hih, hcheq]
          have hA : (s / F + i + 1) * F = (s / F + i) * F + F := by ring
          have hBle : (s / F + i + 1) * F ≤ e := by
            have h1' : s / F + i + 1 ≤ e / F := by omega
            have h2' : (s / F + i + 1) * F ≤ e / F * F := Nat.mul_le_mul_right F h1'
            have h3' : e / F * F = F * (e / F) := by ring
            omega
          have hXY : (s / F + (i + 1)) * F = F + (s / F + i) * F := by ring
          rw [hXY]
          have hsplit : e - (s / F + i) * F = F + (e - (F + (s / F + i) * F)) := by omega
          rw [hsplit, List.take_add, List.drop_drop, Nat.add_comm F ((s / F + i) * F)]

theorem fileSlices_join (F : Nat) (f : SubFile) (s e : Nat) (hF : 0 < F) (hse : s ≤ e)
    (slices : List (List Nat)) (h : fileSlices F f s e = .ok slices) :
    slices.join = (f.plist.drop s).take (e - s) := by
  have hle : s / F ≤ e / F := Nat.div_le_div_right hse
  have hdmS : F * (s / F) + s % F = s := Nat.div_add_mod s F
  have hdmE : F * (e / F) + e % F = e := Nat.div_add_mod e F
  have hltS : s % F < F := Nat.mod_lt s hF
  have hltE : e % F < F := Nat.mod_lt e hF
  have hXs : s / F * F = F * (s / F) := by ring
  have hXe : e / F * F = F * (e / F) := by ring
  unfold fileSlices at h
  cases ho1 : f.plistOffsets.get? (s / F) with
  | none =>
    simp only [ho1, ogNone, bindErr] at h
    cases h
  | some o1 =>
  cases ho2 : f.plistOffsets.get? (e / F + 1) with
  | none =>
    simp only [ho1, ho2, ogSome, ogNone, bindOk, bindErr] at h
    cases h
  | some o2 =>
  simp only [ho1, ho2, ogSome, bindOk] at h
  unfold rrGuard at h
  by_cases hg : o1 ≥ o2
  · rw [if_pos hg] at h
    simp only [bindErr] at h
    cases h
  · rw [if_neg hg] at h
    simp only [bindOk] at h
    rw [show fileSlicesGo F f s e (e / F - s / F + 1) 0 (e / F - s / F + 1) = (do
        let u ← sliceAt F f s e (e / F - s / F + 1) 0
        let rest ← fileSlicesGo F f s e (e / F - s / F + 1) 1 (e / F - s / F)
        Except.ok (u :: rest)) from rfl] at h
    cases hu : sliceAt F f s e (e / F - s / F + 1) 0 with
    | error err =>
      simp only [hu, bindErr] at h
      cases h
    | ok u =>
    simp only [hu, bindOk] at h
    cases hrest : fileSlicesGo F f s e (e / F - s / F + 1) 1 (e / F - s / F) with
    | error err =>
      simp only [hrest, bindErr] at h
      cases h
    | ok rest =>
    simp only [hrest, bindOk] at h
    cases h
    unfold sliceAt at hu
    cases ho1' : f.plistOffsets.get? (s / F + 0) with
    | none =>
      simp only [ho1', ogNone, bindErr] at hu
      cases hu
    | some o1' =>
    cases ho2' : f.plistOffsets.get? (s / F + 0 + 1) with
    | none =>
      simp only [ho1', ho2', ogSome, ogNone, bindOk, bindErr] at hu
      cases hu
    | some o2' =>
    cases hch : chunkUids F f (s / F + 0) with
    | error err =>
      simp only [ho1', ho2', ogSome, bindOk, hch, bindErr] at hu
      cases hu
    | ok ch =>
    simp only [ho1', ho2', ogSome, bindOk, hch] at hu
    have hcheq : ch = (f.plist.drop ((s / F + 0) * F)).take F := chunkUids_ok F f _ ch hch
    rw [if_pos trivial] at hu
    have hch0 : ch = (f.plist.drop (s / F * F)).take F := by
      rw [hcheq]
      norm_num
    by_cases hd : e / F - s / F + 1 = 1
    · rw [if_pos hd] at hu
      injection hu with hu'
      subst hu'
      have hd0 : e / F - s / F = 0 := by omega
      have hq' : s / F = e / F := by omega
      rw [hd0] at hrest
      rw [show fileSlicesGo F f s e (0 + 1) 1 0 = Except.ok [] from rfl] at hrest
      cases hrest
      have hjoin : ((ch.take (e % F)).drop (s % F) :: ([] : List (List Nat))).join
          = (ch.take (e % F)).drop (s % F) := by
        simp
      rw [hjoin, hch0, List.take_take]
      have hmin : min (e % F) F = e % F := Nat.min_eq_left (by omega)
      rw [hmin, List.drop_take, List.drop_drop]
      have hds : s / F * F + s % F = s := by omega
      have hes : e % F - s % F = e - s := by
        have hFq : F * (s / F) = F * (e / F) := by rw [hq']
        omega
      rw [hds, hes]
    · rw [if_neg hd] at hu
      injection hu with hu'
      subst hu'
      have hjrest : rest.join =
          (f.plist.drop ((s / F + 1) * F)).take (e - (s / F + 1) * F) :=
        fileSlicesGo_join F f s e hF hle (e / F - s / F) 1 rest (le_refl 1) (by omega) hrest
      have hjoin : ((ch.drop (s % F)) :: rest).join = ch.drop (s % F) ++ rest.join := rfl
      rw [hjoin, hjrest, hch0, List.drop_take, List.drop_drop]
      have hds : s / F * F + s % F = s := by omega
      rw [hds]
      have hY : (s / F + 1) * F = F * (s / F) + F := by ring
      have hYle : (s / F + 1) * F ≤ e := by
        have h1' : s / F + 1 ≤ e / F := by omega
        have h2' : (s / F + 1) * F ≤ e / F * F := Nat.mul_le_mul_right F h1'
        omega
      have hsplit : e - s = (F - s % F) + (e - (s / F + 1) * F) := by omega
      rw [hsplit, List.take_add, List.drop_drop]
      have hidx : s + (F - s % F) = (s / F + 1) * F := by omega
      rw [hidx]

theorem pairsOf_append (fid : Nat) (a b : List Nat) :
    pairsOf fid (a ++ b) = pairsOf fid a ∪ pairsOf fid b := by
  unfold pairsOf
  rw [List.map_append, List.toFinset_append]

theorem unionFrom_join (fid : Nat) :
    ∀ (l : List (List Nat)) (A : Finset (Nat × Nat)),
      unionFrom fid l A = A ∪ pairsOf fid l.join := by
  intro l
  induction l with
  | nil =>
    intro A
    show A = A ∪ pairsOf fid []
    rw [show pairsOf fid ([] : List Nat) = ∅ from rfl, Finset.union_empty]
  | cons u rest ih =>
    intro A
    rw [unionFrom_cons, ih, show (u :: rest).join = u ++ rest.join from rfl, pairsOf_append,
      Finset.union_assoc]

/-- The untruncated per-file contribution is exactly the `(file_id, uid)`
pairs of positions `[start, end)` of the file's decoded uid list — so
`substringAnswer` is the union over the files of the uids of their final
backward-search intervals, as §4.6 describes. -/
theorem filePairs_spec (F : Nat) (query : List Nat) (fid : Nat) (f : SubFile)
    (se : Nat × Nat) (S : Finset (Nat × Nat)) (hF : 0 < F)
    (hse : searchInterval F f query = .ok se) (hlt : se.1 < se.2)
    (h : filePairs F query fid f = .ok S) :
    S = pairsOf fid ((f.plist.drop se.1).take (se.2 - se.1)) := by
  unfold filePairs at h
  simp only [hse, bindOk] at h
  rw [if_neg (by omega)] at h
  cases hsl : fileSlices F f se.1 se.2 with
  | error err =>
    simp only [hsl, bindErr] at h
    cases h
  | ok slices =>
    simp only [hsl, bindOk] at h
    cases h
    rw [unionFrom_join fid slices ∅, Finset.empty_union,
      fileSlices_join F f se.1 se.2 hF (by omega) slices hsl]
